import Mathlib

/-!
Verification development for the HoloClean domain-generation engine
(`domain/domain.py`) and the co-occurrence featurizer
(`repair/featurize/occurattrfeat.py`).

Modelling conventions:
* Attribute names and cell values are `String`s (`Val`).  A value being
  "missing" (pandas `NaN`, tested by `pd.isnull`) is modelled by an abstract
  predicate `isNull : Val → Bool` carried as a parameter, since the raw-data
  loading that decides nullness lives outside the two source files.
* Python `dict`s are association lists looked up with `lookupA`
  (first binding wins, like a dict with unique keys); a `KeyError` is the
  `none` case of the lookup.
* Python `set`s are insertion-ordered duplicate-free lists built with
  `insVal` / `insAll`; `list(s)` applies an explicit enumeration function
  `enum : List Val → List Val` (a permutation), because CPython's set
  iteration order for strings is decided by the per-process hash salt
  (`PYTHONHASHSEED`) and is not a function of the program's inputs.
* Floating point probabilities are modelled by `ℚ`.
* `random.sample` is an abstract `sampler` advancing an abstract generator
  state (`ℕ`), seeded once per session (`random.seed(env['seed'])`).
* Raised exceptions (`raise`, `ValueError`, `max` of an empty sequence)
  are modelled with `Except`.
-/

namespace HoloClean

/-- Cell values / attribute names. -/
abbrev Val := String

/-- `dataset.CellStatus` as used by `domain.py`. -/
inductive CellStatus where
  | not_set
  | single_value
  | weak_label
deriving DecidableEq, Repr

/-- Association-list lookup, modelling Python `dict` access (`d[k]`,
`k in d`): `none` is the `KeyError` case. -/
def lookupA {κ β : Type} [DecidableEq κ] (m : List (κ × β)) (k : κ) :
    Option β :=
  (m.find? (fun e => decide (e.1 = k))).map (fun e => e.2)

/-- Insert a value into a Python-set model (insertion-ordered, no
duplicates): `s.add(v)` / one step of `s.update(...)`. -/
def insVal (l : List Val) (v : Val) : List Val :=
  if v ∈ l then l else l ++ [v]

/-- `s.update(vs)` on the Python-set model. -/
def insAll (l : List Val) (vs : List Val) : List Val :=
  vs.foldl insVal l

/-- `s.discard(v)` on the Python-set model (also used for building the
pool `set(...) ; pool.discard(cur)`). -/
def removeVal (l : List Val) (v : Val) : List Val :=
  l.filter (fun x => decide (x ≠ v))

/-- First-occurrence deduplication: the key list of a Python `dict`
(or the contents of `set(xs)` in insertion order). -/
def dedupList (l : List Val) : List Val :=
  l.foldl insVal []

/-- Python `list.index(v)` (first occurrence); total version, only used
where membership is established. -/
def idxOfV : List Val → Val → ℕ
  | [], _ => 0
  | x :: xs, v => if x = v then 0 else idxOfV xs v + 1

/-! ## Co-occurrence Statistics Builder (`DomainEngine._pruned_pair_stats`) -/

/-- One insertion step of the stable probability-descending sort used by
`sorted(cands, key=lambda t: t[1], reverse=True)`: an element is placed
before the first element of strictly smaller probability and after all
elements of greater-or-equal probability, so elements of equal probability
keep their encounter order. -/
def insDesc (x : Val × ℚ) : List (Val × ℚ) → List (Val × ℚ)
  | [] => [x]
  | y :: ys => if y.2 ≤ x.2 then x :: y :: ys else y :: insDesc x ys

/-- Stable sort by probability, descending: the model of Python's
`sorted(..., key=lambda t: t[1], reverse=True)` (which is stable). -/
def sortDesc : List (Val × ℚ) → List (Val × ℚ)
  | [] => []
  | x :: xs => insDesc x (sortDesc xs)

/-- The pruning loop of `_pruned_pair_stats` (lines 132-138 of
`domain.py`): walk the sorted candidates, stop (`break`) as soon as the
mass accumulated so far exceeds the cutoff, otherwise append the candidate
and add its probability. -/
def topCDF (cutoff : ℚ) : ℚ → List (Val × ℚ) → List Val
  | _, [] => []
  | cum, (v, p) :: rest =>
    if cutoff < cum then [] else v :: topCDF cutoff (cum + p) rest

/-- The `(val2, count / denom)` candidate list built on line 126 of
`domain.py`, with `denom = single_stats[attr1][val1]`. -/
def candProbs (denom : ℚ) (counts : List (Val × ℕ)) : List (Val × ℚ) :=
  counts.map (fun vc => (vc.1, (vc.2 : ℚ) / denom))

/-- The pruned candidate list for one `(attr1, attr2, val1)` entry of
`pair_stats`: probabilities are `count / denom` with
`denom = single_stats[attr1][val1]`, candidates are sorted by probability
descending (stable) and truncated by `topCDF`. -/
def prunedCandsFor (cutoff denom : ℚ) (counts : List (Val × ℕ)) :
    List Val :=
  topCDF cutoff 0 (sortDesc (candProbs denom counts))

/-- Probability mass of the first `n` candidates. -/
def massTo (l : List (Val × ℚ)) (n : ℕ) : ℚ :=
  ((l.take n).map (fun x => x.2)).sum

/-- The specification's description of pruning: the output is the prefix
of the sorted candidate list up to and including the first element at
which the accumulated mass exceeds the cutoff, or the whole list if the
mass never exceeds it. -/
def prunePrefixSpec (cutoff : ℚ) (l : List (Val × ℚ)) : List Val :=
  match (List.range l.length).find? (fun j => decide (cutoff < massTo l (j + 1))) with
  | some j => (l.take (j + 1)).map (fun x => x.1)
  | none => l.map (fun x => x.1)

/-! ### Lemmas about the stable descending sort -/

theorem insDesc_perm (x : Val × ℚ) (l : List (Val × ℚ)) :
    (insDesc x l).Perm (x :: l) := by
  induction l with
  | nil => simp [insDesc]
  | cons y ys ih =>
    unfold insDesc
    split
    · exact List.Perm.refl _
    · exact (ih.cons y).trans (List.Perm.swap x y ys)

theorem sortDesc_perm (l : List (Val × ℚ)) : (sortDesc l).Perm l := by
  induction l with
  | nil => simp [sortDesc]
  | cons x xs ih => exact (insDesc_perm x (sortDesc xs)).trans (ih.cons x) |>.symm.symm

theorem insDesc_headm (x : Val × ℚ) (l : List (Val × ℚ)) :
    (insDesc x l).head? = some x ∨ (insDesc x l).head? = l.head? := by
  cases l with
  | nil => left; rfl
  | cons y ys =>
    unfold insDesc
    split
    · left; rfl
    · right; rfl

theorem insDesc_sorted {l : List (Val × ℚ)} (x : Val × ℚ)
    (h : List.Chain' (fun a b : Val × ℚ => b.2 ≤ a.2) l) :
    List.Chain' (fun a b : Val × ℚ => b.2 ≤ a.2) (insDesc x l) := by
  induction l with
  | nil => simp [insDesc]
  | cons y ys ih =>
    unfold insDesc
    split
    · rename_i hle
      refine List.chain'_cons'.mpr ⟨fun z hz => ?_, h⟩
      simp only [List.head?_cons, Option.mem_def, Option.some.injEq] at hz
      subst hz
      exact hle
    · rename_i hle
      have hys := (List.chain'_cons'.mp h).2
      have hhd := (List.chain'_cons'.mp h).1
      refine List.chain'_cons'.mpr ⟨fun z hz => ?_, ih hys⟩
      rcases insDesc_headm x ys with hh | hh
      · rw [hh] at hz
        simp at hz
        subst hz
        exact le_of_lt (lt_of_not_le hle)
      · rw [hh] at hz
        exact hhd z hz

theorem sortDesc_sorted (l : List (Val × ℚ)) :
    List.Chain' (fun a b : Val × ℚ => b.2 ≤ a.2) (sortDesc l) := by
  induction l with
  | nil => simp [sortDesc]
  | cons x xs ih => exact insDesc_sorted x ih

theorem insDesc_filter_eq {x : Val × ℚ} {q : ℚ} (hx : x.2 = q)
    (l : List (Val × ℚ)) :
    (insDesc x l).filter (fun z => decide (z.2 = q)) =
      x :: l.filter (fun z => decide (z.2 = q)) := by
  induction l with
  | nil => simp [insDesc, hx]
  | cons y ys ih =>
    unfold insDesc
    split
    · simp [hx]
    · rename_i hle
      have hy : ¬ (y.2 = q) := by
        intro hq
        exact hle (by rw [hq, ← hx])
      simp [List.filter_cons, hy, ih]

theorem insDesc_filter_ne {x : Val × ℚ} {q : ℚ} (hx : ¬ x.2 = q)
    (l : List (Val × ℚ)) :
    (insDesc x l).filter (fun z => decide (z.2 = q)) =
      l.filter (fun z => decide (z.2 = q)) := by
  induction l with
  | nil => simp [insDesc, hx]
  | cons y ys ih =>
    unfold insDesc
    split
    · simp [List.filter_cons, hx]
    · simp [List.filter_cons, ih]

/-- Stability of the descending sort: candidates of equal probability keep
their encounter order. -/
theorem sortDesc_stable (l : List (Val × ℚ)) (q : ℚ) :
    (sortDesc l).filter (fun z => decide (z.2 = q)) =
      l.filter (fun z => decide (z.2 = q)) := by
  induction l with
  | nil => simp [sortDesc]
  | cons x xs ih =>
    show (insDesc x (sortDesc xs)).filter _ = _
    by_cases hx : x.2 = q
    · rw [insDesc_filter_eq hx, ih]
      simp [List.filter_cons, hx]
    · rw [insDesc_filter_ne hx, ih]
      simp [List.filter_cons, hx]

/-! ### The truncation loop equals the spec's first-crossing prefix -/

theorem massTo_cons_succ (v : Val) (p : ℚ) (l : List (Val × ℚ)) (n : ℕ) :
    massTo ((v, p) :: l) (n + 1) = p + massTo l n := by
  simp [massTo, List.take_succ_cons]

theorem topCDF_neg {c : ℚ} (hc : c < 0) (l : List (Val × ℚ)) :
    topCDF c 0 l = [] := by
  cases l with
  | nil => rfl
  | cons x xs =>
    obtain ⟨v, p⟩ := x
    simp [topCDF, hc]

theorem topCDF_shift (l : List (Val × ℚ)) :
    ∀ c cum : ℚ, topCDF c cum l = topCDF (c - cum) 0 l := by
  induction l with
  | nil => intro c cum; rfl
  | cons x rest ih =>
    intro c cum
    obtain ⟨v, p⟩ := x
    show (if c < cum then [] else v :: topCDF c (cum + p) rest) =
      (if c - cum < 0 then [] else v :: topCDF (c - cum) (0 + p) rest)
    have hiff : c < cum ↔ c - cum < 0 := by constructor <;> intro <;> linarith
    by_cases h : c < cum
    · simp [h, hiff.mp h]
    · have h' : ¬ c - cum < 0 := fun hx => h (hiff.mpr hx)
      simp only [h, h', if_false]
      rw [ih c (cum + p), ih (c - cum) (0 + p)]
      congr 1
      ring_nf

theorem topCDF_eq_prunePrefixSpec :
    ∀ (l : List (Val × ℚ)) (c : ℚ), 0 ≤ c → (∀ x ∈ l, 0 ≤ x.2) →
      topCDF c 0 l = prunePrefixSpec c l := by
  intro l
  induction l with
  | nil => intro c _ _; rfl
  | cons x rest ih =>
    intro c hc hpos
    obtain ⟨v, p⟩ := x
    have hp : 0 ≤ p := hpos (v, p) (by simp)
    have hstep : topCDF c 0 ((v, p) :: rest) = v :: topCDF (c - p) 0 rest := by
      show (if c < 0 then [] else v :: topCDF c (0 + p) rest) = _
      rw [if_neg (not_lt.mpr hc), topCDF_shift]
      congr 2
      ring_nf
    rw [hstep]
    unfold prunePrefixSpec
    simp only [List.length_cons]
    rw [List.range_succ_eq_map, List.find?_cons]
    by_cases hcp : c < p
    · have h0 : decide (c < massTo ((v, p) :: rest) (0 + 1)) = true := by
        rw [massTo_cons_succ]
        simp [massTo]
        linarith
      rw [h0]
      simp [List.take_succ_cons, massTo, topCDF_neg (show c - p < 0 by linarith)]
    · have h0 : decide (c < massTo ((v, p) :: rest) (0 + 1)) = false := by
        rw [massTo_cons_succ]
        simp [massTo]
        linarith
      rw [h0, List.find?_map]
      have hfun : ((fun j => decide (c < massTo ((v, p) :: rest) (j + 1))) ∘ Nat.succ)
          = (fun j => decide (c - p < massTo rest (j + 1))) := by
        funext j
        show decide (c < massTo ((v, p) :: rest) (j + 1 + 1)) = _
        rw [massTo_cons_succ]
        exact decide_eq_decide.mpr (by constructor <;> intro <;> linarith)
      rw [hfun]
      have hrec := ih (c - p) (by linarith) (fun y hy => hpos y (by simp [hy]))
      rw [hrec]
      unfold prunePrefixSpec
      cases hfind : (List.range rest.length).find?
          (fun j => decide (c - p < massTo rest (j + 1))) with
      | none => simp
      | some j => simp [List.take_succ_cons]

/-- **C2.** For every `(attribute1, attribute2, value1)`, the pruned
candidate list produced by `_pruned_pair_stats` is the
probability-descending stably sorted candidate list (ties broken by
encounter order) truncated the first time the accumulated
conditional-probability mass exceeds `domain_top_percentile`: the crossing
element is included and every later element is excluded.  Stated as: the
sorted list is sorted and is a stable permutation of the candidates, and
the code's loop output equals the first-crossing prefix of the
specification. -/
theorem claim_C2 (cutoff denom : ℚ) (counts : List (Val × ℕ))
    (hc : 0 ≤ cutoff) (hd : 0 < denom) :
    List.Chain' (fun a b : Val × ℚ => b.2 ≤ a.2) (sortDesc (candProbs denom counts))
    ∧ (sortDesc (candProbs denom counts)).Perm (candProbs denom counts)
    ∧ (∀ q : ℚ, (sortDesc (candProbs denom counts)).filter (fun z => decide (z.2 = q))
        = (candProbs denom counts).filter (fun z => decide (z.2 = q)))
    ∧ prunedCandsFor cutoff denom counts
        = prunePrefixSpec cutoff (sortDesc (candProbs denom counts)) := by
  refine ⟨sortDesc_sorted _, sortDesc_perm _, sortDesc_stable _, ?_⟩
  unfold prunedCandsFor
  apply topCDF_eq_prunePrefixSpec _ _ hc
  intro x hx
  have hx' : x ∈ candProbs denom counts := (sortDesc_perm _).mem_iff.mp hx
  unfold candProbs at hx'
  rw [List.mem_map] at hx'
  obtain ⟨vc, _, hvc⟩ := hx'
  rw [← hvc]
  exact div_nonneg (Nat.cast_nonneg _) hd.le

/-- Witness for C2 at a concrete input: cutoff `9/10`, denominator `4`,
counts `a ↦ 2, b ↦ 1, c ↦ 1`. -/
theorem claim_C2_witness :
    (0 : ℚ) ≤ 9/10 ∧ (0 : ℚ) < 4 ∧
    (List.Chain' (fun a b : Val × ℚ => b.2 ≤ a.2)
        (sortDesc (candProbs 4 [("a", 2), ("b", 1), ("c", 1)]))
      ∧ (sortDesc (candProbs 4 [("a", 2), ("b", 1), ("c", 1)])).Perm
          (candProbs 4 [("a", 2), ("b", 1), ("c", 1)])
      ∧ (∀ q : ℚ, (sortDesc (candProbs 4 [("a", 2), ("b", 1), ("c", 1)])).filter
            (fun z => decide (z.2 = q))
          = (candProbs 4 [("a", 2), ("b", 1), ("c", 1)]).filter
              (fun z => decide (z.2 = q)))
      ∧ prunedCandsFor (9/10) 4 [("a", 2), ("b", 1), ("c", 1)]
          = prunePrefixSpec (9/10) (sortDesc (candProbs 4 [("a", 2), ("b", 1), ("c", 1)]))) :=
  ⟨by norm_num, by norm_num,
    claim_C2 (9/10) 4 [("a", 2), ("b", 1), ("c", 1)] (by norm_num) (by norm_num)⟩

/-! ## Python `max(..., key=lambda pred: pred[1])` -/

/-- The fold underlying Python's `max` with a key: the current best is
replaced only when a strictly larger key appears, so the first element
attaining the maximum is returned. -/
def pymaxFold (b : Val × ℚ) (l : List (Val × ℚ)) : Val × ℚ :=
  l.foldl (fun b x => if b.2 < x.2 then x else b) b

/-- Python `max(l, key=lambda pred: pred[1])`; `max` of an empty sequence
raises `ValueError`. -/
def pyMaxE (l : List (Val × ℚ)) : Except String (Val × ℚ) :=
  match l with
  | [] => .error "ValueError: max() arg is an empty sequence"
  | x :: xs => .ok (pymaxFold x xs)

theorem pymaxFold_eq (ys : List (Val × ℚ)) :
    ∀ x y : Val × ℚ, pymaxFold x (y :: ys) =
      (if x.2 < (pymaxFold y ys).2 then pymaxFold y ys else x) := by
  induction ys with
  | nil =>
    intro x y
    simp [pymaxFold]
  | cons z zs ih =>
    intro x y
    have hL : pymaxFold x (y :: z :: zs)
        = pymaxFold (if x.2 < y.2 then y else x) (z :: zs) := rfl
    rw [hL, ih _ z, ih y z]
    rcases lt_or_le y.2 (pymaxFold z zs).2 with h1 | h1
    · rcases lt_or_le x.2 y.2 with h2 | h2
      · simp only [if_pos h2, if_pos h1, if_pos (h2.trans h1)]
      · simp only [if_neg (not_lt.mpr h2), if_pos h1]
    · rcases lt_or_le x.2 y.2 with h2 | h2
      · simp only [if_pos h2, if_neg (not_lt.mpr h1)]
      · simp only [if_neg (not_lt.mpr h2), if_neg (not_lt.mpr h1)]
        rw [if_neg (not_lt.mpr (h1.trans h2))]

theorem pymaxFold_le_start (l : List (Val × ℚ)) :
    ∀ b : Val × ℚ, b.2 ≤ (pymaxFold b l).2 := by
  induction l with
  | nil => intro b; simp [pymaxFold]
  | cons x xs ih =>
    intro b
    have : pymaxFold b (x :: xs) = pymaxFold (if b.2 < x.2 then x else b) xs := rfl
    rw [this]
    rcases lt_or_le b.2 x.2 with h | h
    · exact h.le.trans (by simpa [h] using ih (if b.2 < x.2 then x else b))
    · simpa [not_lt.mpr h] using ih (if b.2 < x.2 then x else b)

theorem pymaxFold_le_mem (l : List (Val × ℚ)) :
    ∀ (b z : Val × ℚ), z ∈ l → z.2 ≤ (pymaxFold b l).2 := by
  induction l with
  | nil => intro b z hz; simp at hz
  | cons x xs ih =>
    intro b z hz
    have hstep : pymaxFold b (x :: xs) = pymaxFold (if b.2 < x.2 then x else b) xs := rfl
    rw [hstep]
    rcases List.mem_cons.mp hz with h | h
    · subst h
      have hx : z.2 ≤ (if b.2 < z.2 then z else b).2 := by
        rcases lt_or_le b.2 z.2 with h1 | h1
        · simp [h1]
        · simp [not_lt.mpr h1, h1]
      exact hx.trans (pymaxFold_le_start _ _)
    · exact ih _ z h

theorem pymaxFold_mem (l : List (Val × ℚ)) :
    ∀ b : Val × ℚ, pymaxFold b l ∈ b :: l := by
  induction l with
  | nil => intro b; simp [pymaxFold]
  | cons x xs ih =>
    intro b
    have hstep : pymaxFold b (x :: xs) = pymaxFold (if b.2 < x.2 then x else b) xs := rfl
    rw [hstep]
    rcases List.mem_cons.mp (ih (if b.2 < x.2 then x else b)) with h | h
    · rw [h]
      rcases lt_or_le b.2 x.2 with h1 | h1 <;> simp [h1, not_lt.mpr, le_refl]
    · exact List.mem_cons_of_mem _ (List.mem_cons_of_mem _ h)

/-- The head of the stable descending sort is Python's `max` of the list:
the first element attaining the maximal probability. -/
theorem sortDesc_cons_head (xs : List (Val × ℚ)) :
    ∀ x : Val × ℚ, ∃ t, sortDesc (x :: xs) = pymaxFold x xs :: t := by
  induction xs with
  | nil => intro x; exact ⟨[], rfl⟩
  | cons y ys ih =>
    intro x
    obtain ⟨t', ht'⟩ := ih y
    have hs : sortDesc (x :: y :: ys) = insDesc x (sortDesc (y :: ys)) := rfl
    rw [hs, ht']
    rw [pymaxFold_eq ys x y]
    show ∃ t, insDesc x (pymaxFold y ys :: t') = _
    unfold insDesc
    rcases lt_or_le x.2 (pymaxFold y ys).2 with h | h
    · rw [if_neg (not_le.mpr h), if_pos h]
      exact ⟨insDesc x t', rfl⟩
    · rw [if_pos h, if_neg (not_lt.mpr h)]
      exact ⟨pymaxFold y ys :: t', rfl⟩

/-! ## The Weak-Label Refiner (`generate_domain`, lines 284-316) -/

/-- `DomainRecord`: one row of the `cell_domain` DataFrame built by
`generate_domain`.  The `domain` column, a `'|||'`-joined string in the
DataFrame, is carried as the list of values it joins (the join/split
serialization for the Postgres table is out of scope). -/
structure Record where
  tid : ℤ
  attr : Val
  cid : ℤ
  vid : ℕ
  domain : List Val
  domain_size : ℕ
  init_value : Val
  init_index : ℕ
  weak_label : Val
  weak_label_idx : ℕ
  fixed : CellStatus
deriving DecidableEq, Repr

/-- Python `list.index(v)` as used on lines 302-303 and 311:
raises `ValueError` when the value is absent. -/
def pyListIndex (l : List Val) (v : Val) : Except String ℕ :=
  if v ∈ l then .ok (idxOfV l v) else .error "ValueError"

/-- Line 291 of `domain.py`:
`preds = [[val, proba] for val, proba in preds if proba >= thresh] or preds`
(Python `or`: an empty filtered list falls back to the original list). -/
def filterOr (t : ℚ) (l : List (Val × ℚ)) : List (Val × ℚ) :=
  if l.filter (fun x => decide (t ≤ x.2)) = [] then l
  else l.filter (fun x => decide (t ≤ x.2))

/-- Line 294 of `domain.py`: the values kept after filtering (line 291),
sorting by probability descending, and capping at `max_domain`. -/
def keptVals (dt2 : ℚ) (maxDomain : ℕ) (preds : List (Val × ℚ)) : List Val :=
  ((sortDesc (filterOr dt2 preds)).take maxDomain).map (fun x => x.1)

/-- Lines 297-298 of `domain.py`: append the initial value when it is not
among the kept values. -/
def withInit (init : Val) (kept : List Val) : List Val :=
  if init ∈ kept then kept else kept ++ [init]

/-- Per-cell refinement step of `generate_domain` (lines 284-316): cells
fixed as `SINGLE_VALUE` pass through unchanged; otherwise the posterior
list is filtered by `domain_thresh_2` (falling back to the unfiltered
list), sorted by probability descending, capped at `max_domain`, the
initial value is appended if missing, indices are recomputed, and a weak
label is assigned when the best posterior probability reaches
`weak_label_thresh`. -/
def refineRow (dt2 wlt : ℚ) (maxDomain : ℕ) (preds : List (Val × ℚ))
    (r : Record) : Except String Record :=
  if r.fixed = CellStatus.single_value then .ok r else
  let preds2 := filterOr dt2 preds
  let dv := withInit r.init_value (keptVals dt2 maxDomain preds)
  match pyListIndex dv r.weak_label with
  | .error e => .error e
  | .ok wlIdx0 =>
    match pyListIndex dv r.init_value with
    | .error e => .error e
    | .ok initIdx =>
      let r1 : Record :=
        { r with domain := dv, domain_size := dv.length,
                 weak_label_idx := wlIdx0, init_index := initIdx }
      match pyMaxE preds2 with
      | .error e => .error e
      | .ok best =>
        if wlt ≤ best.2 then
          match pyListIndex dv best.1 with
          | .error e => .error e
          | .ok wlIdx =>
            .ok { r1 with weak_label := best.1, weak_label_idx := wlIdx,
                          fixed := CellStatus.weak_label }
        else .ok r1

/-! ### Lemmas about `idxOfV`, `filterOr`, `keptVals` -/

theorem idxOfV_lt_length {l : List Val} {v : Val} (h : v ∈ l) :
    idxOfV l v < l.length := by
  induction l with
  | nil => simp at h
  | cons x xs ih =>
    unfold idxOfV
    by_cases hx : x = v
    · simp [hx]
    · rcases List.mem_cons.mp h with h1 | h1
      · exact absurd h1.symm hx
      · simp only [hx, if_false, List.length_cons]
        exact Nat.succ_lt_succ (ih h1)

theorem get?_idxOfV {l : List Val} {v : Val} (h : v ∈ l) :
    l.get? (idxOfV l v) = some v := by
  induction l with
  | nil => simp at h
  | cons x xs ih =>
    unfold idxOfV
    by_cases hx : x = v
    · simp [hx]
    · rcases List.mem_cons.mp h with h1 | h1
      · exact absurd h1.symm hx
      · simp only [hx, if_false]
        exact ih h1

theorem filterOr_ne_nil {t : ℚ} {l : List (Val × ℚ)} (h : l ≠ []) :
    filterOr t l ≠ [] := by
  unfold filterOr
  split
  · exact h
  · assumption

theorem filterOr_map_fst_sublist (t : ℚ) (l : List (Val × ℚ)) :
    ((filterOr t l).map (fun x => x.1)).Sublist (l.map (fun x => x.1)) := by
  unfold filterOr
  split
  · exact List.Sublist.refl _
  · exact (List.filter_sublist l).map _

theorem pymaxFold_filter {t : ℚ} (xs : List (Val × ℚ)) :
    ∀ x : Val × ℚ, t ≤ x.2 →
      pymaxFold x (xs.filter (fun z => decide (t ≤ z.2))) = pymaxFold x xs := by
  induction xs with
  | nil => intro x _; rfl
  | cons y ys ih =>
    intro x hx
    by_cases hy : t ≤ y.2
    · rw [List.filter_cons_of_pos (by simpa using hy)]
      show pymaxFold (if x.2 < y.2 then y else x) (ys.filter _)
        = pymaxFold (if x.2 < y.2 then y else x) ys
      apply ih
      rcases lt_or_le x.2 y.2 with h | h
      · simpa [h] using hy
      · simpa [not_lt.mpr h] using hx
    · rw [List.filter_cons_of_neg (by simpa using hy)]
      have hxy : ¬ x.2 < y.2 := by
        intro hlt
        exact hy (hx.trans hlt.le)
      show pymaxFold x (ys.filter _) = pymaxFold (if x.2 < y.2 then y else x) ys
      rw [if_neg hxy]
      exact ih x hx

theorem pyMaxE_filter {t : ℚ} :
    ∀ l : List (Val × ℚ), l.filter (fun z => decide (t ≤ z.2)) ≠ [] →
      pyMaxE (l.filter (fun z => decide (t ≤ z.2))) = pyMaxE l := by
  intro l
  induction l with
  | nil => intro h; simp at h
  | cons x xs ih =>
    intro h
    by_cases hx : t ≤ x.2
    · rw [List.filter_cons_of_pos (by simpa using hx)]
      show Except.ok (pymaxFold x (xs.filter _)) = Except.ok (pymaxFold x xs)
      rw [pymaxFold_filter xs x hx]
    · rw [List.filter_cons_of_neg (by simpa using hx)] at h ⊢
      rw [ih h]
      obtain ⟨z, hz, hzt⟩ : ∃ z ∈ xs, t ≤ z.2 := by
        obtain ⟨z, hzmem⟩ := List.exists_mem_of_ne_nil _ h
        have := List.mem_filter.mp hzmem
        exact ⟨z, this.1, by simpa using this.2⟩
      cases xs with
      | nil => simp at hz
      | cons y ys =>
        show Except.ok (pymaxFold y ys) = Except.ok (pymaxFold x (y :: ys))
        rw [pymaxFold_eq ys x y]
        have hxm : x.2 < (pymaxFold y ys).2 := by
          have hzm : z.2 ≤ (pymaxFold y ys).2 := by
            rcases List.mem_cons.mp hz with h1 | h1
            · rw [h1]; exact pymaxFold_le_start ys y
            · exact pymaxFold_le_mem ys y z h1
          have : x.2 < t := lt_of_not_le hx
          linarith
        rw [if_pos hxm]

/-- `max` over the filtered-or-fallback list equals `max` over the
unfiltered posterior list: the first element attaining the maximal
probability always survives the `domain_thresh_2` filter when anything
does. -/
theorem pyMaxE_filterOr {t : ℚ} {l : List (Val × ℚ)} (_h : l ≠ []) :
    pyMaxE (filterOr t l) = pyMaxE l := by
  unfold filterOr
  split
  · rfl
  · exact pyMaxE_filter l (by assumption)

theorem keptVals_nodup {dt2 : ℚ} {maxDomain : ℕ} {preds : List (Val × ℚ)}
    (h : (preds.map (fun x => x.1)).Nodup) :
    (keptVals dt2 maxDomain preds).Nodup := by
  unfold keptVals
  have h1 : ((filterOr dt2 preds).map (fun x => x.1)).Nodup :=
    (filterOr_map_fst_sublist dt2 preds).nodup h
  have h2 : ((sortDesc (filterOr dt2 preds)).map (fun x => x.1)).Nodup :=
    ((sortDesc_perm _).map _).nodup_iff.mpr h1
  rw [List.map_take]
  exact (List.take_sublist _ _).nodup h2

theorem keptVals_ne_nil {dt2 : ℚ} {maxDomain : ℕ} {preds : List (Val × ℚ)}
    (h : preds ≠ []) (hmd : 1 ≤ maxDomain) :
    keptVals dt2 maxDomain preds ≠ [] := by
  unfold keptVals
  have h1 : filterOr dt2 preds ≠ [] := filterOr_ne_nil h
  have h2 : sortDesc (filterOr dt2 preds) ≠ [] := by
    intro hc
    apply h1
    have := (sortDesc_perm (filterOr dt2 preds)).length_eq
    rw [hc] at this
    exact List.length_eq_zero.mp this.symm
  cases hs : sortDesc (filterOr dt2 preds) with
  | nil => exact absurd hs h2
  | cons a t =>
    obtain ⟨m, hm⟩ := Nat.exists_eq_add_of_le hmd
    have hm' : maxDomain = m + 1 := by omega
    rw [hm']
    simp [List.take_succ_cons]

/-- The value returned by `max(preds, ...)` is kept: it is the head of the
descending sort and `max_domain ≥ 1`. -/
theorem best_mem_keptVals {dt2 : ℚ} {maxDomain : ℕ} {preds : List (Val × ℚ)}
    {b : Val × ℚ} (hb : pyMaxE (filterOr dt2 preds) = .ok b)
    (hmd : 1 ≤ maxDomain) :
    b.1 ∈ keptVals dt2 maxDomain preds := by
  unfold keptVals
  cases hf : filterOr dt2 preds with
  | nil => rw [hf] at hb; exact absurd hb (by simp [pyMaxE])
  | cons x xs =>
    rw [hf] at hb
    have hbv : b = pymaxFold x xs := by
      simpa [pyMaxE] using hb.symm
    obtain ⟨t, ht⟩ := sortDesc_cons_head xs x
    rw [ht, ← hbv]
    obtain ⟨m, hm⟩ := Nat.exists_eq_add_of_le hmd
    have hm' : maxDomain = m + 1 := by omega
    rw [hm']
    simp [List.take_succ_cons]

theorem mem_withInit (init : Val) (kept : List Val) :
    init ∈ withInit init kept := by
  unfold withInit
  split
  · assumption
  · simp

theorem withInit_nodup {init : Val} {kept : List Val} (h : kept.Nodup) :
    (withInit init kept).Nodup := by
  unfold withInit
  split
  · exact h
  · rename_i hni
    simpa [List.nodup_append, hni] using h

theorem subset_withInit {init v : Val} {kept : List Val} (h : v ∈ kept) :
    v ∈ withInit init kept := by
  unfold withInit
  split
  · exact h
  · exact List.mem_append_left _ h

theorem withInit_length {init : Val} {kept : List Val} :
    (withInit init kept).length ≤ kept.length + 1 := by
  unfold withInit
  split
  · omega
  · simp

theorem keptVals_length_le (dt2 : ℚ) (maxDomain : ℕ)
    (preds : List (Val × ℚ)) :
    (keptVals dt2 maxDomain preds).length ≤ maxDomain := by
  unfold keptVals
  rw [List.length_map]
  exact List.length_take_le _ _

/-- Full characterization of a successful refinement step: under the
phase-1 invariants (`weak_label == init_value`, status not
`SINGLE_VALUE`), a non-empty posterior list and `max_domain ≥ 1`, the
step succeeds and produces exactly the record dictated by lines 290-316
of `domain.py` — with the best pair taken over the *unfiltered* posterior
list (`pyMaxE_filterOr`). -/
theorem refineRow_ok (dt2 wlt : ℚ) (maxDomain : ℕ) (preds : List (Val × ℚ))
    (r : Record) (b : Val × ℚ)
    (hfix : ¬ r.fixed = CellStatus.single_value)
    (hwl : r.weak_label = r.init_value)
    (hne : preds ≠ [])
    (hmd : 1 ≤ maxDomain)
    (hb : pyMaxE preds = .ok b) :
    refineRow dt2 wlt maxDomain preds r =
      (if wlt ≤ b.2 then
        .ok { r with
              domain := withInit r.init_value (keptVals dt2 maxDomain preds),
              domain_size := (withInit r.init_value (keptVals dt2 maxDomain preds)).length,
              init_index := idxOfV (withInit r.init_value (keptVals dt2 maxDomain preds)) r.init_value,
              weak_label := b.1,
              weak_label_idx := idxOfV (withInit r.init_value (keptVals dt2 maxDomain preds)) b.1,
              fixed := CellStatus.weak_label }
      else
        .ok { r with
              domain := withInit r.init_value (keptVals dt2 maxDomain preds),
              domain_size := (withInit r.init_value (keptVals dt2 maxDomain preds)).length,
              weak_label_idx := idxOfV (withInit r.init_value (keptVals dt2 maxDomain preds)) r.weak_label,
              init_index := idxOfV (withInit r.init_value (keptVals dt2 maxDomain preds)) r.init_value }) := by
  have hb2 : pyMaxE (filterOr dt2 preds) = .ok b := by
    rw [pyMaxE_filterOr hne, hb]
  have hm1 : r.weak_label ∈ withInit r.init_value (keptVals dt2 maxDomain preds) := by
    rw [hwl]; exact mem_withInit _ _
  have hm2 : r.init_value ∈ withInit r.init_value (keptVals dt2 maxDomain preds) :=
    mem_withInit _ _
  have hm3 : b.1 ∈ withInit r.init_value (keptVals dt2 maxDomain preds) :=
    subset_withInit (best_mem_keptVals hb2 hmd)
  unfold refineRow
  rw [if_neg hfix]
  simp only [pyListIndex, if_pos hm1, if_pos hm2, hb2, if_pos hm3]

/-- Scenario record for C3: a binary cell with initial value `n`. -/
def scenRec : Record :=
  { tid := 0, attr := "A", cid := 0, vid := 0, domain := ["m", "n"],
    domain_size := 2, init_value := "n", init_index := 1,
    weak_label := "n", weak_label_idx := 1, fixed := CellStatus.not_set }

/-- **C3.** For every variable cell not marked `SINGLE_VALUE`, the refiner
takes `(best_value, best_probability)` as the argmax over the *unfiltered*
posterior list; if `best_probability >= weak_label_thresh` it sets
`weak_label = best_value`, sets `weak_label_idx` to that value's index in
the new domain and marks the cell `WEAK_LABEL`; otherwise the weak label
remains `init_value` and the status remains `NOT_SET`.  With threshold
`0.8`, posteriors `[(m, 0.85), (n, 0.15)]` yield weak label `m` and
status `WEAK_LABEL`, while `[(m, 0.7), (n, 0.3)]` leave the weak label at
`init_value = n` and status `NOT_SET`. -/
theorem claim_C3 :
    (∀ (dt2 wlt : ℚ) (maxDomain : ℕ) (preds : List (Val × ℚ)) (r : Record)
       (b : Val × ℚ),
      r.fixed = CellStatus.not_set →
      r.weak_label = r.init_value →
      preds ≠ [] → 1 ≤ maxDomain →
      pyMaxE preds = .ok b →
      ∃ r', refineRow dt2 wlt maxDomain preds r = .ok r' ∧
        (wlt ≤ b.2 →
          r'.weak_label = b.1 ∧ r'.weak_label_idx = idxOfV r'.domain b.1 ∧
          r'.fixed = CellStatus.weak_label) ∧
        (b.2 < wlt →
          r'.weak_label = r.init_value ∧ r'.fixed = CellStatus.not_set))
    ∧ (refineRow 0 (mkRat 8 10) 10 [("m", mkRat 85 100), ("n", mkRat 15 100)]
          scenRec).toOption.map (fun r' => (r'.weak_label, r'.fixed))
        = some ("m", CellStatus.weak_label)
    ∧ (refineRow 0 (mkRat 8 10) 10 [("m", mkRat 7 10), ("n", mkRat 3 10)]
          scenRec).toOption.map (fun r' => (r'.weak_label, r'.fixed))
        = some ("n", CellStatus.not_set) := by
  refine ⟨?_, ?_, ?_⟩
  · intro dt2 wlt maxDomain preds r b hfix hwl hne hmd hb
    have hfix' : ¬ r.fixed = CellStatus.single_value := by
      rw [hfix]; intro hc; cases hc
    have := refineRow_ok dt2 wlt maxDomain preds r b hfix' hwl hne hmd hb
    by_cases hwlt : wlt ≤ b.2
    · rw [if_pos hwlt] at this
      refine ⟨_, this, fun _ => ⟨rfl, rfl, rfl⟩, fun hlt => absurd hwlt (absurd hwlt ?_)⟩
      intro
      linarith
    · rw [if_neg hwlt] at this
      refine ⟨_, this, fun hc => absurd hc hwlt, fun _ => ⟨hwl, hfix⟩⟩
  · rfl
  · rfl

/-- Witness for C3: the first scenario, derived by applying `claim_C3`'s
general statement at the concrete scenario inputs. -/
theorem claim_C3_witness :
    scenRec.fixed = CellStatus.not_set ∧ scenRec.weak_label = scenRec.init_value ∧
    ([("m", mkRat 85 100), ("n", mkRat 15 100)] : List (Val × ℚ)) ≠ [] ∧
    1 ≤ 10 ∧
    pyMaxE [("m", mkRat 85 100), ("n", mkRat 15 100)] = .ok ("m", mkRat 85 100) ∧
    (∃ r', refineRow 0 (mkRat 8 10) 10 [("m", mkRat 85 100), ("n", mkRat 15 100)] scenRec
        = .ok r' ∧
      (mkRat 8 10 ≤ (("m", mkRat 85 100) : Val × ℚ).2 →
        r'.weak_label = (("m", mkRat 85 100) : Val × ℚ).1 ∧
        r'.weak_label_idx = idxOfV r'.domain (("m", mkRat 85 100) : Val × ℚ).1 ∧
        r'.fixed = CellStatus.weak_label) ∧
      ((("m", mkRat 85 100) : Val × ℚ).2 < mkRat 8 10 →
        r'.weak_label = scenRec.init_value ∧ r'.fixed = CellStatus.not_set)) :=
  ⟨rfl, rfl, by simp, by omega, rfl,
    claim_C3.1 0 (mkRat 8 10) 10 [("m", mkRat 85 100), ("n", mkRat 15 100)]
      scenRec ("m", mkRat 85 100) rfl rfl (by simp) (by omega) rfl⟩

/-- **C4.** For every variable cell not marked `SINGLE_VALUE`, the refiner
keeps exactly the posterior candidates with probability at or above
`domain_thresh_2`, falling back to the entire unfiltered list when the
filter would be empty; it keeps at most `max_domain` of them in
probability-descending order and appends `init_value` when absent, so the
resulting domain is never empty, always contains `init_value`, and
exceeds the cap by at most one (only when `init_value` is appended). -/
theorem claim_C4 :
    ∀ (dt2 wlt : ℚ) (maxDomain : ℕ) (preds : List (Val × ℚ)) (r : Record),
      ¬ r.fixed = CellStatus.single_value →
      r.weak_label = r.init_value →
      preds ≠ [] → 1 ≤ maxDomain →
      ∃ r', refineRow dt2 wlt maxDomain preds r = .ok r' ∧
        r'.domain = withInit r.init_value (keptVals dt2 maxDomain preds) ∧
        (preds.filter (fun x => decide (dt2 ≤ x.2)) ≠ [] →
          filterOr dt2 preds = preds.filter (fun x => decide (dt2 ≤ x.2))) ∧
        (preds.filter (fun x => decide (dt2 ≤ x.2)) = [] →
          filterOr dt2 preds = preds) ∧
        r'.domain ≠ [] ∧
        r.init_value ∈ r'.domain ∧
        r'.domain.length ≤ maxDomain + 1 ∧
        (maxDomain < r'.domain.length →
          r.init_value ∉ keptVals dt2 maxDomain preds) := by
  intro dt2 wlt maxDomain preds r hfix hwl hne hmd
  obtain ⟨x, xs, hx⟩ : ∃ x xs, preds = x :: xs := by
    cases preds with
    | nil => exact absurd rfl hne
    | cons x xs => exact ⟨x, xs, rfl⟩
  have hb : pyMaxE preds = .ok (pymaxFold x xs) := by rw [hx]; rfl
  have hmain := refineRow_ok dt2 wlt maxDomain preds r (pymaxFold x xs)
    hfix hwl hne hmd hb
  have hfo1 : preds.filter (fun x => decide (dt2 ≤ x.2)) ≠ [] →
      filterOr dt2 preds = preds.filter (fun x => decide (dt2 ≤ x.2)) := by
    intro h
    unfold filterOr
    rw [if_neg h]
  have hfo2 : preds.filter (fun x => decide (dt2 ≤ x.2)) = [] →
      filterOr dt2 preds = preds := by
    intro h
    unfold filterOr
    rw [if_pos h]
  have hprops : ∀ r' : Record, r'.domain = withInit r.init_value (keptVals dt2 maxDomain preds) →
      r'.domain ≠ [] ∧ r.init_value ∈ r'.domain ∧ r'.domain.length ≤ maxDomain + 1 ∧
      (maxDomain < r'.domain.length → r.init_value ∉ keptVals dt2 maxDomain preds) := by
    intro r' hdom
    refine ⟨?_, ?_, ?_, ?_⟩
    · rw [hdom]
      exact List.ne_nil_of_mem (mem_withInit _ _)
    · rw [hdom]
      exact mem_withInit _ _
    · rw [hdom]
      calc (withInit r.init_value (keptVals dt2 maxDomain preds)).length
          ≤ (keptVals dt2 maxDomain preds).length + 1 := withInit_length
        _ ≤ maxDomain + 1 := by
            have := keptVals_length_le dt2 maxDomain preds
            omega
    · intro hlen hmem
      rw [hdom] at hlen
      unfold withInit at hlen
      rw [if_pos hmem] at hlen
      have := keptVals_length_le dt2 maxDomain preds
      omega
  by_cases hwlt : wlt ≤ (pymaxFold x xs).2
  · rw [if_pos hwlt] at hmain
    refine ⟨_, hmain, rfl, hfo1, hfo2, ?_⟩
    exact hprops _ rfl
  · rw [if_neg hwlt] at hmain
    refine ⟨_, hmain, rfl, hfo1, hfo2, ?_⟩
    exact hprops _ rfl

/-- Witness for C4 at concrete inputs (threshold 2, max_domain 1, two
posterior candidates, initial value absent from the kept list so it is
appended and the cap is exceeded by one). -/
theorem claim_C4_witness :
    ¬ scenRec.fixed = CellStatus.single_value ∧
    scenRec.weak_label = scenRec.init_value ∧
    ([("m", (3 : ℚ)), ("q", (2 : ℚ))] : List (Val × ℚ)) ≠ [] ∧ 1 ≤ 1 ∧
    (∃ r', refineRow 2 5 1 [("m", (3 : ℚ)), ("q", (2 : ℚ))] scenRec = .ok r' ∧
      r'.domain = withInit scenRec.init_value (keptVals 2 1 [("m", (3 : ℚ)), ("q", (2 : ℚ))]) ∧
      (([("m", (3 : ℚ)), ("q", (2 : ℚ))] : List (Val × ℚ)).filter
          (fun x => decide ((2:ℚ) ≤ x.2)) ≠ [] →
        filterOr 2 [("m", (3 : ℚ)), ("q", (2 : ℚ))]
          = ([("m", (3 : ℚ)), ("q", (2 : ℚ))] : List (Val × ℚ)).filter
              (fun x => decide ((2:ℚ) ≤ x.2))) ∧
      (([("m", (3 : ℚ)), ("q", (2 : ℚ))] : List (Val × ℚ)).filter
          (fun x => decide ((2:ℚ) ≤ x.2)) = [] →
        filterOr 2 [("m", (3 : ℚ)), ("q", (2 : ℚ))]
          = [("m", (3 : ℚ)), ("q", (2 : ℚ))]) ∧
      r'.domain ≠ [] ∧
      scenRec.init_value ∈ r'.domain ∧
      r'.domain.length ≤ 1 + 1 ∧
      (1 < r'.domain.length →
        scenRec.init_value ∉ keptVals 2 1 [("m", (3 : ℚ)), ("q", (2 : ℚ))])) :=
  ⟨fun hc => CellStatus.noConfusion hc, rfl, by simp, le_refl 1,
    claim_C4 2 5 1 [("m", (3 : ℚ)), ("q", (2 : ℚ))] scenRec
      (by intro hc; cases hc) rfl (by simp) (le_refl 1)⟩

/-! ## Domain Candidate Generator (`get_domain_cell`, `get_random_domain`,
`generate_domain` lines 207-255) -/

/-- One row of the raw data (`ds.get_raw_data().to_records()`): a tuple id
and a total mapping from attribute name to the row's value. -/
structure RowData where
  tid : ℤ
  cells : Val → Val

/-- Outcome of processing one correlated attribute inside
`get_domain_cell`'s loop (lines 356-372): continue with an updated
candidate set, `break` out of the loop, or re-`raise` the `KeyError`. -/
inductive StepRes where
  | cont (dom : List Val)
  | brk (dom : List Val)
  | err (v : Val)

/-- One iteration of the loop over correlated attributes in
`get_domain_cell`: skip the attribute itself and the bookkeeping columns,
skip null conditioning values, `break` when the pruned map for the pair
is empty, union the pruned candidates on a hit, and on a `KeyError`
re-raise exactly when the cell's own value is non-null. -/
def domStep (isNull : Val → Bool) (pps : Val → Val → List (Val × List Val))
    (attr : Val) (row : RowData) (dom : List Val) (condAttr : Val) : StepRes :=
  if condAttr = attr ∨ condAttr = "index" ∨ condAttr = "_tid_" then .cont dom
  else
    if isNull (row.cells condAttr) then .cont dom
    else if pps condAttr attr = [] then .brk dom
    else
      match lookupA (pps condAttr attr) (row.cells condAttr) with
      | some cands => .cont (insAll dom cands)
      | none =>
        if isNull (row.cells attr) then .cont dom else .err (row.cells condAttr)

/-- The loop of `get_domain_cell` over the correlated attributes. -/
def domLoop (isNull : Val → Bool) (pps : Val → Val → List (Val × List Val))
    (attr : Val) (row : RowData) : List Val → List Val → Except Val (List Val)
  | [], dom => .ok dom
  | c :: rest, dom =>
    match domStep isNull pps attr row dom c with
    | .cont d => domLoop isNull pps attr row rest d
    | .brk d => .ok d
    | .err v => .error v

/-- `get_domain_cell` (lines 327-381): union pruned co-occurrence
candidates over all correlated attributes, discard the `'_nan_'`
placeholder, always add the initial value, and enumerate the resulting
set (`list(domain)`) with the interpreter's enumeration function. -/
def get_domain_cell (isNull : Val → Bool) (enum : List Val → List Val)
    (pps : Val → Val → List (Val × List Val)) (corrAttrs : List Val)
    (attr : Val) (row : RowData) : Except Val (Val × List Val) :=
  match domLoop isNull pps attr row corrAttrs [] with
  | .error v => .error v
  | .ok dom0 =>
    let dom1 := removeVal dom0 "_nan_"
    let init := row.cells attr
    .ok (init, enum (insVal dom1 init))

/-- `get_random_domain` (lines 383-397): sample at most `max_sample`
values for `attr` other than `cur_value` from the observed values;
`random.sample` is the abstract `sampler`, which also consumes the pool's
enumeration order and advances the generator state. -/
def get_random_domain (sampler : List Val → ℕ → ℕ → List Val × ℕ)
    (singleStats : Val → List (Val × ℕ)) (maxSample : ℕ)
    (attr curValue : Val) (rng : ℕ) : List Val × ℕ :=
  let pool := removeVal (dedupList ((singleStats attr).map (fun e => e.1))) curValue
  if 0 < pool.length then sampler pool (min maxSample pool.length) rng
  else ([], rng)

/-- The per-session inputs of `DomainEngine.generate_domain`: the
environment thresholds, the memoized correlated-attribute lists
(`get_corr_attributes(attr, cor_strength)`), the pruned pair statistics,
the single statistics, the `dataset.get_cell_id` function and the active
attributes, together with the interpreter parameters (`isNull`, set
enumeration, `random.sample`). -/
structure GenParams where
  isNull : Val → Bool
  enum : List Val → List Val
  sampler : List Val → ℕ → ℕ → List Val × ℕ
  cellId : ℤ → Val → ℤ
  corr : Val → List Val
  pps : Val → Val → List (Val × List Val)
  singleStats : Val → List (Val × ℕ)
  activeAttrs : List Val
  maxSample : ℕ
  weakLabelThresh : ℚ
  domainThresh2 : ℚ
  maxDomain : ℕ

/-- One `attr` iteration of `generate_domain`'s first pass
(lines 215-253): build the cell's domain; if it has more than one value,
emit a `NOT_SET` record; otherwise pad with a random sample (the sample
is drawn again for `dom.extend`, advancing the generator a second time,
exactly as in the source) and emit a `SINGLE_VALUE` record, or drop the
cell when no alternative value exists.  `vid` increments exactly when a
record is emitted. -/
def phase1Attr (p : GenParams) (row : RowData) (vid rng : ℕ) (attr : Val) :
    Except Val (Option Record × ℕ × ℕ) :=
  match get_domain_cell p.isNull p.enum p.pps (p.corr attr) attr row with
  | .error v => .error v
  | .ok (init, dom) =>
    let initIdx := idxOfV dom init
    if 1 < dom.length then
      .ok (some { tid := row.tid, attr := attr, cid := p.cellId row.tid attr,
                  vid := vid, domain := dom, domain_size := dom.length,
                  init_value := init, init_index := initIdx,
                  weak_label := init, weak_label_idx := initIdx,
                  fixed := CellStatus.not_set }, vid + 1, rng)
    else
      let s1 := get_random_domain p.sampler p.singleStats p.maxSample attr init rng
      if s1.1 = [] then .ok (none, vid, s1.2)
      else
        let s2 := get_random_domain p.sampler p.singleStats p.maxSample attr init s1.2
        .ok (some { tid := row.tid, attr := attr, cid := p.cellId row.tid attr,
                    vid := vid, domain := dom ++ s2.1,
                    domain_size := (dom ++ s2.1).length,
                    init_value := init, init_index := initIdx,
                    weak_label := init, weak_label_idx := initIdx,
                    fixed := CellStatus.single_value }, vid + 1, s2.2)

/-- The loop over active attributes for one row. -/
def phase1Attrs (p : GenParams) (row : RowData) :
    List Val → ℕ → ℕ → Except Val (List Record × ℕ × ℕ)
  | [], vid, rng => .ok ([], vid, rng)
  | a :: as, vid, rng =>
    match phase1Attr p row vid rng a with
    | .error v => .error v
    | .ok (rec?, vid1, rng1) =>
      match phase1Attrs p row as vid1 rng1 with
      | .error v => .error v
      | .ok (recs, vid2, rng2) => .ok (rec?.toList ++ recs, vid2, rng2)

/-- The loop over raw-data rows of `generate_domain`'s first pass. -/
def phase1Rows (p : GenParams) :
    List RowData → ℕ → ℕ → Except Val (List Record × ℕ × ℕ)
  | [], vid, rng => .ok ([], vid, rng)
  | row :: rows, vid, rng =>
    match phase1Attrs p row p.activeAttrs vid rng with
    | .error v => .error v
    | .ok (recs, vid1, rng1) =>
      match phase1Rows p rows vid1 rng1 with
      | .error v => .error v
      | .ok (recs2, vid2, rng2) => .ok (recs ++ recs2, vid2, rng2)

/-- The refinement pass over `zip(preds_by_cell, domain_df.to_records())`
(lines 284-316); Python's `zip` truncates to the shorter input. -/
def refineAll (dt2 wlt : ℚ) (maxDomain : ℕ) :
    List (List (Val × ℚ) × Record) → Except String (List Record)
  | [] => .ok []
  | pr :: rest =>
    match refineRow dt2 wlt maxDomain pr.1 pr.2 with
    | .error e => .error e
    | .ok r' =>
      match refineAll dt2 wlt maxDomain rest with
      | .error e => .error e
      | .ok rs => .ok (r' :: rs)

/-- `generate_domain` (lines 175-325): the first pass assigns domains and
dense `vid`s starting from 0 (the generator state starts at the
configured seed, `random.seed(env['seed'])` being called once per
session); when `weak_label_thresh == 1 and domain_thresh_2 == 0` the
estimator stage is skipped, otherwise each cell is refined against the
posterior predictions `preds_by_cell` supplied by the external
estimator. -/
def generate_domain (p : GenParams) (rows : List RowData) (seed : ℕ)
    (predsByCell : List (List (Val × ℚ))) : Except String (List Record) :=
  match phase1Rows p rows 0 seed with
  | .error v => .error v
  | .ok (recs, _, _) =>
    if p.weakLabelThresh = 1 ∧ p.domainThresh2 = 0 then .ok recs
    else refineAll p.domainThresh2 p.weakLabelThresh p.maxDomain
      (predsByCell.zip recs)

/-- The record batch of a successful run ( `[]` on an exception);
used to compare the outputs of two runs. -/
def okRecords (e : Except String (List Record)) : List Record :=
  e.toOption.getD []

/-! ### Set-model lemmas -/

theorem insVal_nodup {l : List Val} (v : Val) (h : l.Nodup) :
    (insVal l v).Nodup := by
  unfold insVal
  split
  · exact h
  · rename_i hni
    simpa [List.nodup_append, hni] using h

theorem mem_insVal_self (l : List Val) (v : Val) : v ∈ insVal l v := by
  unfold insVal
  split
  · assumption
  · simp

theorem mem_insVal_of_mem {l : List Val} {w : Val} (v : Val) (h : w ∈ l) :
    w ∈ insVal l v := by
  unfold insVal
  split
  · exact h
  · exact List.mem_append_left _ h

theorem insAll_nodup (vs : List Val) :
    ∀ l : List Val, l.Nodup → (insAll l vs).Nodup := by
  induction vs with
  | nil => intro l h; exact h
  | cons v vs ih =>
    intro l h
    exact ih (insVal l v) (insVal_nodup v h)

theorem removeVal_nodup {l : List Val} (v : Val) (h : l.Nodup) :
    (removeVal l v).Nodup :=
  (List.filter_sublist l).nodup h

theorem mem_removeVal_ne {l : List Val} {v w : Val} (h : w ∈ removeVal l v) :
    w ≠ v := by
  unfold removeVal at h
  simpa using (List.mem_filter.mp h).2

theorem dedupList_nodup (l : List Val) : (dedupList l).Nodup :=
  insAll_nodup l [] List.nodup_nil

/-! ### `get_domain_cell` invariants -/

/-- Case analysis of one loop step: it continues with the same set,
continues with the pruned candidates unioned in, breaks, or raises. -/
theorem domStep_cases (isNull : Val → Bool)
    (pps : Val → Val → List (Val × List Val)) (attr : Val) (row : RowData)
    (dom : List Val) (c : Val) :
    domStep isNull pps attr row dom c = .cont dom
    ∨ (∃ cands, lookupA (pps c attr) (row.cells c) = some cands ∧
        domStep isNull pps attr row dom c = .cont (insAll dom cands))
    ∨ domStep isNull pps attr row dom c = .brk dom
    ∨ domStep isNull pps attr row dom c = .err (row.cells c) := by
  unfold domStep
  split
  · left; rfl
  · split
    · left; rfl
    · split
      · right; right; left; rfl
      · split
        · rename_i cands heq
          right; left
          exact ⟨cands, heq, rfl⟩
        · split
          · left; rfl
          · right; right; right; rfl

theorem domStep_cont_nodup {isNull : Val → Bool}
    {pps : Val → Val → List (Val × List Val)} {attr : Val} {row : RowData}
    {dom : List Val} {c : Val} {d : List Val}
    (h : domStep isNull pps attr row dom c = .cont d) (hnd : dom.Nodup) :
    d.Nodup := by
  rcases domStep_cases isNull pps attr row dom c with h1 | ⟨cands, _, h2⟩ | h3 | h4
  · rw [h] at h1
    injection h1 with e
    rw [e]
    exact hnd
  · rw [h] at h2
    injection h2 with e
    rw [e]
    exact insAll_nodup cands dom hnd
  · rw [h] at h3; cases h3
  · rw [h] at h4; cases h4

theorem domStep_brk_eq {isNull : Val → Bool}
    {pps : Val → Val → List (Val × List Val)} {attr : Val} {row : RowData}
    {dom : List Val} {c : Val} {d : List Val}
    (h : domStep isNull pps attr row dom c = .brk d) : d = dom := by
  rcases domStep_cases isNull pps attr row dom c with h1 | ⟨cands, _, h2⟩ | h3 | h4
  · rw [h] at h1; cases h1
  · rw [h] at h2; cases h2
  · rw [h] at h3
    injection h3
  · rw [h] at h4; cases h4

theorem domLoop_nodup (isNull : Val → Bool)
    (pps : Val → Val → List (Val × List Val)) (attr : Val) (row : RowData) :
    ∀ (cas dom : List Val), dom.Nodup →
      ∀ d, domLoop isNull pps attr row cas dom = .ok d → d.Nodup := by
  intro cas
  induction cas with
  | nil =>
    intro dom h d hd
    cases hd
    exact h
  | cons c rest ih =>
    intro dom h d hd
    unfold domLoop at hd
    revert hd
    cases hs : domStep isNull pps attr row dom c with
    | cont d' =>
      intro hd
      exact ih d' (domStep_cont_nodup hs h) d hd
    | brk d' =>
      intro hd
      injection hd with e
      rw [← e, domStep_brk_eq hs]
      exact h
    | err v => intro hd; cases hd

/-- A successful `get_domain_cell` returns the row's own value for the
attribute, and a duplicate-free domain containing it (provided the set
enumeration is a permutation). -/
theorem get_domain_cell_ok {isNull : Val → Bool} {enum : List Val → List Val}
    {pps : Val → Val → List (Val × List Val)} {corrAttrs : List Val}
    {attr : Val} {row : RowData} {init : Val} {dom : List Val}
    (henum : ∀ l, (enum l).Perm l)
    (h : get_domain_cell isNull enum pps corrAttrs attr row = .ok (init, dom)) :
    init = row.cells attr ∧ dom.Nodup ∧ init ∈ dom := by
  unfold get_domain_cell at h
  revert h
  cases hl : domLoop isNull pps attr row corrAttrs [] with
  | error v => intro h; cases h
  | ok dom0 =>
    dsimp only
    intro h
    have hd0 : dom0.Nodup :=
      domLoop_nodup isNull pps attr row corrAttrs [] List.nodup_nil dom0 hl
    have h1 : (removeVal dom0 "_nan_").Nodup := removeVal_nodup _ hd0
    have h2 : (insVal (removeVal dom0 "_nan_") (row.cells attr)).Nodup :=
      insVal_nodup _ h1
    have h3 : row.cells attr ∈ insVal (removeVal dom0 "_nan_") (row.cells attr) :=
      mem_insVal_self _ _
    simp only [Except.ok.injEq, Prod.mk.injEq] at h
    obtain ⟨hinit, hdom⟩ := h
    subst hinit
    subst hdom
    exact ⟨rfl, ((henum _).nodup_iff).mpr h2, ((henum _).mem_iff).mpr h3⟩

/-- Well-behavedness of the abstract `random.sample`: the sample is
duplicate-free and drawn from the pool. -/
def SamplerOK (sampler : List Val → ℕ → ℕ → List Val × ℕ) : Prop :=
  ∀ pool k s, (sampler pool k s).1.Nodup ∧ ∀ v ∈ (sampler pool k s).1, v ∈ pool

theorem get_random_domain_props {sampler : List Val → ℕ → ℕ → List Val × ℕ}
    (hs : SamplerOK sampler) (singleStats : Val → List (Val × ℕ))
    (maxSample : ℕ) (attr curValue : Val) (rng : ℕ) :
    (get_random_domain sampler singleStats maxSample attr curValue rng).1.Nodup ∧
    ∀ v ∈ (get_random_domain sampler singleStats maxSample attr curValue rng).1,
      v ≠ curValue := by
  unfold get_random_domain
  dsimp only
  split
  · refine ⟨(hs _ _ _).1, fun v hv => ?_⟩
    exact mem_removeVal_ne ((hs _ _ _).2 v hv)
  · simp

/-! ### Record invariants (C1) -/

/-- The DomainRecord invariant of the specification: the initial value is
in the domain, the domain has no duplicates, `domain_size` is its length,
and both indices are valid positions holding the initial value and the
weak label respectively (the `≥ 0` halves are inherent in `ℕ`). -/
def RecordInv (r : Record) : Prop :=
  r.init_value ∈ r.domain ∧
  r.domain.Nodup ∧
  r.domain_size = r.domain.length ∧
  r.init_index < r.domain_size ∧
  r.domain.get? r.init_index = some r.init_value ∧
  r.weak_label_idx < r.domain_size ∧
  r.domain.get? r.weak_label_idx = some r.weak_label

/-- The additional invariant after the first pass: the weak label is the
initial value. -/
def Phase1Inv (r : Record) : Prop :=
  RecordInv r ∧ r.weak_label = r.init_value

theorem singleton_of_short {dom : List Val} {v : Val}
    (hm : v ∈ dom) (hl : ¬ 1 < dom.length) : dom = [v] := by
  cases dom with
  | nil => simp at hm
  | cons x xs =>
    cases xs with
    | nil =>
      rcases List.mem_cons.mp hm with h | h
      · rw [h]
      · simp at h
    | cons y ys => simp at hl

theorem phase1Attr_inv {p : GenParams} {row : RowData} {vid rng : ℕ}
    {attr : Val} {r : Record} {vid' rng' : ℕ}
    (henum : ∀ l, (p.enum l).Perm l) (hsam : SamplerOK p.sampler)
    (h : phase1Attr p row vid rng attr = .ok (some r, vid', rng')) :
    Phase1Inv r := by
  unfold phase1Attr at h
  revert h
  cases hg : get_domain_cell p.isNull p.enum p.pps (p.corr attr) attr row with
  | error v => intro h; cases h
  | ok pr =>
    obtain ⟨init, dom⟩ := pr
    obtain ⟨hinit, hnd, hmem⟩ := get_domain_cell_ok henum hg
    dsimp only
    by_cases hlen : 1 < dom.length
    · rw [if_pos hlen]
      intro h
      simp only [Except.ok.injEq, Prod.mk.injEq, Option.some.injEq] at h
      obtain ⟨hr, _, _⟩ := h
      subst hr
      exact ⟨⟨hmem, hnd, rfl, idxOfV_lt_length hmem, get?_idxOfV hmem,
        idxOfV_lt_length hmem, get?_idxOfV hmem⟩, rfl⟩
    · rw [if_neg hlen]
      split
      · intro h; cases h
      · intro h
        simp only [Except.ok.injEq, Prod.mk.injEq, Option.some.injEq] at h
        obtain ⟨hr, _, _⟩ := h
        subst hr
        have hdom1 : dom = [init] := singleton_of_short hmem hlen
        obtain ⟨hs2nd, hs2ne⟩ := get_random_domain_props hsam p.singleStats
          p.maxSample attr init
          (get_random_domain p.sampler p.singleStats p.maxSample attr init rng).2
        set s2 := (get_random_domain p.sampler p.singleStats p.maxSample attr init
          (get_random_domain p.sampler p.singleStats p.maxSample attr init rng).2).1
          with hs2def
        have hcons : dom ++ s2 = init :: s2 := by rw [hdom1]; rfl
        have hnd2 : (dom ++ s2).Nodup := by
          rw [hcons]
          exact List.nodup_cons.mpr ⟨fun hc => (hs2ne init hc) rfl, hs2nd⟩
        have hidx : idxOfV dom init = 0 := by rw [hdom1]; simp [idxOfV]
        have hmem2 : init ∈ dom ++ s2 := List.mem_append_left _ hmem
        have hget : (dom ++ s2).get? (idxOfV dom init) = some init := by
          rw [hidx, hcons]; rfl
        have hlt : idxOfV dom init < (dom ++ s2).length := by
          rw [hidx, hcons]; simp
        exact ⟨⟨hmem2, hnd2, rfl, hlt, hget, hlt, hget⟩, rfl⟩

theorem phase1Attrs_inv {p : GenParams} {row : RowData}
    (henum : ∀ l, (p.enum l).Perm l) (hsam : SamplerOK p.sampler) :
    ∀ (as : List Val) (vid rng : ℕ) (recs : List Record) (vid' rng' : ℕ),
      phase1Attrs p row as vid rng = .ok (recs, vid', rng') →
      ∀ r ∈ recs, Phase1Inv r := by
  intro as
  induction as with
  | nil =>
    intro vid rng recs vid' rng' h r hr
    cases h
    simp at hr
  | cons a as ih =>
    intro vid rng recs vid' rng' h r hr
    unfold phase1Attrs at h
    cases h1 : phase1Attr p row vid rng a with
    | error v => rw [h1] at h; simp at h
    | ok out1 =>
      obtain ⟨rec?, vid1, rng1⟩ := out1
      rw [h1] at h
      dsimp only at h
      cases h2 : phase1Attrs p row as vid1 rng1 with
      | error v => rw [h2] at h; simp at h
      | ok out2 =>
        obtain ⟨recs2, vid2, rng2⟩ := out2
        rw [h2] at h
        simp only [Except.ok.injEq, Prod.mk.injEq] at h
        obtain ⟨hrecs, hv2, hr2⟩ := h
        subst hrecs
        rcases List.mem_append.mp hr with hmem | hmem
        · cases hrec : rec? with
          | none => rw [hrec] at hmem; simp at hmem
          | some r0 =>
            rw [hrec] at hmem
            simp at hmem
            subst hmem
            rw [hrec] at h1
            exact phase1Attr_inv henum hsam h1
        · exact ih vid1 rng1 recs2 vid2 rng2 h2 r hmem

theorem phase1Rows_inv {p : GenParams}
    (henum : ∀ l, (p.enum l).Perm l) (hsam : SamplerOK p.sampler) :
    ∀ (rows : List RowData) (vid rng : ℕ) (recs : List Record) (vid' rng' : ℕ),
      phase1Rows p rows vid rng = .ok (recs, vid', rng') →
      ∀ r ∈ recs, Phase1Inv r := by
  intro rows
  induction rows with
  | nil =>
    intro vid rng recs vid' rng' h r hr
    cases h
    simp at hr
  | cons row rows ih =>
    intro vid rng recs vid' rng' h r hr
    unfold phase1Rows at h
    cases h1 : phase1Attrs p row p.activeAttrs vid rng with
    | error v => rw [h1] at h; simp at h
    | ok out1 =>
      obtain ⟨recs1, vid1, rng1⟩ := out1
      rw [h1] at h
      dsimp only at h
      cases h2 : phase1Rows p rows vid1 rng1 with
      | error v => rw [h2] at h; simp at h
      | ok out2 =>
        obtain ⟨recs2, vid2, rng2⟩ := out2
        rw [h2] at h
        simp only [Except.ok.injEq, Prod.mk.injEq] at h
        obtain ⟨hrecs, hv2, hr2⟩ := h
        subst hrecs
        rcases List.mem_append.mp hr with hmem | hmem
        · exact phase1Attrs_inv henum hsam p.activeAttrs vid rng recs1 vid1 rng1 h1 r hmem
        · exact ih vid1 rng1 recs2 vid2 rng2 h2 r hmem

theorem mem_insVal_sub {l : List Val} {v w : Val} (h : w ∈ insVal l v) :
    w ∈ l ∨ w = v := by
  unfold insVal at h
  revert h
  split
  · exact fun h => Or.inl h
  · intro h
    rcases List.mem_append.mp h with h | h
    · exact Or.inl h
    · simp at h
      exact Or.inr h

theorem mem_foldl_insVal :
    ∀ (vs l : List Val) (w : Val), w ∈ vs.foldl insVal l → w ∈ l ∨ w ∈ vs := by
  intro vs
  induction vs with
  | nil => intro l w h; exact Or.inl h
  | cons v vs ih =>
    intro l w h
    rcases ih (insVal l v) w h with h1 | h1
    · rcases mem_insVal_sub h1 with h2 | h2
      · exact Or.inl h2
      · exact Or.inr (by simp [h2])
    · exact Or.inr (List.mem_cons_of_mem _ h1)

theorem dedupList_subset {l : List Val} {w : Val} (h : w ∈ dedupList l) :
    w ∈ l := by
  rcases mem_foldl_insVal l [] w h with h1 | h1
  · simp at h1
  · exact h1

/-- The `random.sample` model used by concrete witnesses: take the first
`k` distinct pool elements and advance the generator state. -/
theorem takeSampler_ok :
    SamplerOK (fun pool k s => ((dedupList pool).take k, s + 1)) := by
  intro pool k s
  constructor
  · exact (List.take_sublist _ _).nodup (dedupList_nodup pool)
  · intro v hv
    exact dedupList_subset ((List.take_sublist _ _).subset hv)

/-- Refinement preserves the record invariant (and establishes it for the
rebuilt domain). -/
theorem refineRow_inv {dt2 wlt : ℚ} {md : ℕ} {preds : List (Val × ℚ)}
    {r r' : Record}
    (hpne : preds ≠ []) (hpnd : (preds.map (fun x => x.1)).Nodup)
    (hmd : 1 ≤ md) (hinv : Phase1Inv r)
    (h : refineRow dt2 wlt md preds r = .ok r') : RecordInv r' := by
  by_cases hfix : r.fixed = CellStatus.single_value
  · unfold refineRow at h
    rw [if_pos hfix] at h
    injection h with e
    rw [← e]
    exact hinv.1
  · obtain ⟨x, xs, hx⟩ : ∃ x xs, preds = x :: xs := by
      cases preds with
      | nil => exact absurd rfl hpne
      | cons x xs => exact ⟨x, xs, rfl⟩
    have hb : pyMaxE preds = .ok (pymaxFold x xs) := by rw [hx]; rfl
    have hmain := refineRow_ok dt2 wlt md preds r (pymaxFold x xs)
      hfix hinv.2 hpne hmd hb
    rw [hmain] at h
    have hknd : (keptVals dt2 md preds).Nodup := keptVals_nodup hpnd
    have hdvnd : (withInit r.init_value (keptVals dt2 md preds)).Nodup :=
      withInit_nodup hknd
    have hdvinit : r.init_value ∈ withInit r.init_value (keptVals dt2 md preds) :=
      mem_withInit _ _
    have hb2 : pyMaxE (filterOr dt2 preds) = .ok (pymaxFold x xs) := by
      rw [pyMaxE_filterOr hpne, hb]
    have hbmem : (pymaxFold x xs).1 ∈ withInit r.init_value (keptVals dt2 md preds) :=
      subset_withInit (best_mem_keptVals hb2 hmd)
    split at h
    · injection h with e
      rw [← e]
      exact ⟨hdvinit, hdvnd, rfl, idxOfV_lt_length hdvinit, get?_idxOfV hdvinit,
        idxOfV_lt_length hbmem, get?_idxOfV hbmem⟩
    · injection h with e
      rw [← e]
      have hwl : r.weak_label ∈ withInit r.init_value (keptVals dt2 md preds) := by
        rw [hinv.2]; exact hdvinit
      exact ⟨hdvinit, hdvnd, rfl, idxOfV_lt_length hdvinit, get?_idxOfV hdvinit,
        idxOfV_lt_length hwl, get?_idxOfV hwl⟩

theorem refineAll_inv {dt2 wlt : ℚ} {md : ℕ} :
    ∀ (prs : List (List (Val × ℚ) × Record)) (out : List Record),
      (∀ pr ∈ prs, pr.1 ≠ [] ∧ (pr.1.map (fun x => x.1)).Nodup ∧ Phase1Inv pr.2) →
      1 ≤ md →
      refineAll dt2 wlt md prs = .ok out → ∀ r ∈ out, RecordInv r := by
  intro prs
  induction prs with
  | nil =>
    intro out _ _ h r hr
    cases h
    simp at hr
  | cons pr rest ih =>
    intro out hhyp hmd h r hr
    unfold refineAll at h
    cases h1 : refineRow dt2 wlt md pr.1 pr.2 with
    | error e => rw [h1] at h; simp at h
    | ok r1 =>
      rw [h1] at h
      cases h2 : refineAll dt2 wlt md rest with
      | error e => rw [h2] at h; simp at h
      | ok rs =>
        rw [h2] at h
        simp only [Except.ok.injEq] at h
        subst h
        rcases List.mem_cons.mp hr with hmem | hmem
        · obtain ⟨hp1, hp2, hp3⟩ := hhyp pr (by simp)
          rw [hmem]
          exact refineRow_inv hp1 hp2 hmd hp3 h1
        · exact ih rs (fun q hq => hhyp q (List.mem_cons_of_mem _ hq)) hmd h2 r hmem

/-- **C1.** Every DomainRecord produced by domain generation and by
weak-label refinement satisfies: `init_value ∈ domain`; `domain` has no
duplicate values; `domain_size = len(domain)`; and `init_index` and
`weak_label_idx` are valid indices into `domain` (non-negativity is
inherent in `ℕ`) pointing at `init_value` and `weak_label` respectively.
Hypotheses: the set enumeration is a permutation, `random.sample` returns
a duplicate-free subset of its pool, the external estimator returns a
non-empty duplicate-free posterior list per cell, and `max_domain ≥ 1`. -/
theorem claim_C1 :
    ∀ (p : GenParams) (rows : List RowData) (seed : ℕ)
      (predsByCell : List (List (Val × ℚ))) (out : List Record),
      (∀ l, (p.enum l).Perm l) →
      SamplerOK p.sampler →
      (∀ pd ∈ predsByCell, pd ≠ [] ∧ (pd.map (fun x => x.1)).Nodup) →
      1 ≤ p.maxDomain →
      generate_domain p rows seed predsByCell = .ok out →
      ∀ r ∈ out, RecordInv r := by
  intro p rows seed preds out henum hsam hpreds hmd h
  unfold generate_domain at h
  cases h1 : phase1Rows p rows 0 seed with
  | error v => rw [h1] at h; simp at h
  | ok out1 =>
    obtain ⟨recs, vidF, rngF⟩ := out1
    rw [h1] at h
    dsimp only at h
    have hph1 : ∀ r ∈ recs, Phase1Inv r :=
      phase1Rows_inv henum hsam rows 0 seed recs vidF rngF h1
    split at h
    · simp only [Except.ok.injEq] at h
      subst h
      intro r hr
      exact (hph1 r hr).1
    · refine refineAll_inv (preds.zip recs) out (fun pr hpr => ?_) hmd h
      obtain ⟨a, b⟩ := pr
      obtain ⟨ha, hb⟩ := List.of_mem_zip hpr
      exact ⟨(hpreds a ha).1, (hpreds a ha).2, hph1 b hb⟩

/-- Concrete parameters for the C1 witness: one row, one active
attribute, a correlated conditioning attribute with pruned candidates
`x, y`, and a refinement pass with integer-valued posteriors. -/
def c1Params : GenParams :=
  { isNull := fun _ => false,
    enum := fun l => l,
    sampler := fun pool k s => ((dedupList pool).take k, s + 1),
    cellId := fun t _ => t,
    corr := fun a => if a = "B" then ["A"] else [],
    pps := fun c a => if c = "A" ∧ a = "B" then [("H", ["x", "y"])] else [],
    singleStats := fun a => if a = "B" then [("x", 2), ("b0", 1)] else [],
    activeAttrs := ["B"],
    maxSample := 5,
    weakLabelThresh := 2,
    domainThresh2 := 0,
    maxDomain := 10 }

/-- The raw-data row used by the C1 witness. -/
def c1Row : RowData :=
  { tid := 0, cells := fun a => if a = "A" then "H" else if a = "B" then "b0" else "" }

/-- The record batch produced by the concrete C1 witness run. -/
def c1OutRec : Record :=
  { tid := 0, attr := "B", cid := 0, vid := 0,
    domain := ["x", "b0"], domain_size := 2, init_value := "b0",
    init_index := 1, weak_label := "x", weak_label_idx := 0,
    fixed := CellStatus.weak_label }

/-- Witness for C1 at a fully concrete run (the run emits one `NOT_SET`
record which is then weak-labelled by the refinement pass). -/
theorem claim_C1_witness :
    (∀ l : List Val, (c1Params.enum l).Perm l) ∧
    SamplerOK c1Params.sampler ∧
    (∀ pd ∈ [[(("x" : Val), (3 : ℚ)), ("b0", 1)]],
      pd ≠ [] ∧ (pd.map (fun x => x.1)).Nodup) ∧
    1 ≤ c1Params.maxDomain ∧
    (generate_domain c1Params [c1Row] 0 [[(("x" : Val), (3 : ℚ)), ("b0", 1)]]
      = .ok [c1OutRec]) ∧
    (∀ r ∈ [c1OutRec], RecordInv r) :=
  ⟨fun l => List.Perm.refl l, takeSampler_ok, by decide, by decide, rfl,
    claim_C1 c1Params [c1Row] 0 [[(("x" : Val), (3 : ℚ)), ("b0", 1)]] _
      (fun l => List.Perm.refl l) takeSampler_ok (by decide) (by decide) rfl⟩

/-! ### `vid` density and `cid` correspondence (C7) -/

theorem phase1Attr_out {p : GenParams} {row : RowData} {vid rng : ℕ}
    {attr : Val} {rec? : Option Record} {vid' rng' : ℕ}
    (h : phase1Attr p row vid rng attr = .ok (rec?, vid', rng')) :
    (rec? = none → vid' = vid) ∧
    (∀ r0, rec? = some r0 → vid' = vid + 1 ∧ r0.vid = vid ∧
      r0.tid = row.tid ∧ r0.attr = attr ∧ r0.cid = p.cellId row.tid attr) := by
  unfold phase1Attr at h
  revert h
  cases hg : get_domain_cell p.isNull p.enum p.pps (p.corr attr) attr row with
  | error v => intro h; cases h
  | ok pr =>
    obtain ⟨init, dom⟩ := pr
    dsimp only
    split
    · intro h
      simp only [Except.ok.injEq, Prod.mk.injEq] at h
      obtain ⟨h1, h2, h3⟩ := h
      constructor
      · intro hn; rw [← h1] at hn; cases hn
      · intro r0 hs
        rw [← h1] at hs
        injection hs with hs
        rw [← hs, ← h2]
        exact ⟨rfl, rfl, rfl, rfl, rfl⟩
    · split
      · intro h
        simp only [Except.ok.injEq, Prod.mk.injEq] at h
        obtain ⟨h1, h2, h3⟩ := h
        constructor
        · intro _; omega
        · intro r0 hs
          rw [← h1] at hs
          cases hs
      · intro h
        simp only [Except.ok.injEq, Prod.mk.injEq] at h
        obtain ⟨h1, h2, h3⟩ := h
        constructor
        · intro hn; rw [← h1] at hn; cases hn
        · intro r0 hs
          rw [← h1] at hs
          injection hs with hs
          rw [← hs, ← h2]
          exact ⟨rfl, rfl, rfl, rfl, rfl⟩

theorem phase1Attrs_out {p : GenParams} {row : RowData} :
    ∀ (as : List Val) (vid rng : ℕ) (recs : List Record) (vid' rng' : ℕ),
      phase1Attrs p row as vid rng = .ok (recs, vid', rng') →
      recs.map (fun r => r.vid) = List.range' vid recs.length ∧
      vid' = vid + recs.length ∧
      (∀ r ∈ recs, r.tid = row.tid ∧ r.cid = p.cellId row.tid r.attr ∧ r.attr ∈ as) ∧
      (as.Nodup → (recs.map (fun r => r.attr)).Nodup) := by
  intro as
  induction as with
  | nil =>
    intro vid rng recs vid' rng' h
    cases h
    exact ⟨rfl, rfl, by simp, by simp⟩
  | cons a as ih =>
    intro vid rng recs vid' rng' h
    unfold phase1Attrs at h
    cases h1 : phase1Attr p row vid rng a with
    | error v => rw [h1] at h; simp at h
    | ok out1 =>
      obtain ⟨rec?, vid1, rng1⟩ := out1
      rw [h1] at h
      dsimp only at h
      cases h2 : phase1Attrs p row as vid1 rng1 with
      | error v => rw [h2] at h; simp at h
      | ok out2 =>
        obtain ⟨recs2, vid2, rng2⟩ := out2
        rw [h2] at h
        simp only [Except.ok.injEq, Prod.mk.injEq] at h
        obtain ⟨hrecs, hv2, _⟩ := h
        subst hrecs
        subst hv2
        obtain ⟨hvids, hvid2, hmem, hnd⟩ := ih vid1 rng1 recs2 vid2 rng2 h2
        obtain ⟨hnone, hsome⟩ := phase1Attr_out h1
        cases hrec : rec? with
        | none =>
          have hv1 : vid1 = vid := hnone hrec
          subst hv1
          refine ⟨by simpa using hvids, by simpa using hvid2, ?_, ?_⟩
          · intro r hr
            simp only [hrec, Option.toList_none, List.nil_append] at hr
            obtain ⟨ht, hc, ha⟩ := hmem r hr
            exact ⟨ht, hc, List.mem_cons_of_mem _ ha⟩
          · intro hnodup
            simpa [hrec] using hnd (List.Nodup.of_cons hnodup)
        | some r0 =>
          obtain ⟨hv1, hr0vid, hr0tid, hr0attr, hr0cid⟩ := hsome r0 hrec
          subst hv1
          refine ⟨?_, ?_, ?_, ?_⟩
          · simp only [hrec, Option.toList_some, List.singleton_append,
              List.length_cons, List.map_cons]
            rw [List.range'_succ vid recs2.length 1, hr0vid, hvids]
          · simp [hrec]
            omega
          · intro r hr
            simp only [hrec, Option.toList_some, List.singleton_append] at hr
            rcases List.mem_cons.mp hr with hcase | hcase
            · subst hcase
              exact ⟨hr0tid, by rw [hr0cid, hr0attr], by rw [hr0attr]; simp⟩
            · obtain ⟨ht, hc, ha⟩ := hmem r hcase
              exact ⟨ht, hc, List.mem_cons_of_mem _ ha⟩
          · intro hnodup
            simp only [hrec, Option.toList_some, List.singleton_append, List.map_cons]
            refine List.nodup_cons.mpr ⟨?_, hnd (List.Nodup.of_cons hnodup)⟩
            intro hcontra
            rw [List.mem_map] at hcontra
            obtain ⟨r, hrmem, hrattr⟩ := hcontra
            obtain ⟨_, _, ha⟩ := hmem r hrmem
            rw [hrattr, hr0attr] at ha
            exact (List.nodup_cons.mp hnodup).1 ha

theorem phase1Rows_out {p : GenParams} :
    ∀ (rows : List RowData) (vid rng : ℕ) (recs : List Record) (vid' rng' : ℕ),
      phase1Rows p rows vid rng = .ok (recs, vid', rng') →
      recs.map (fun r => r.vid) = List.range' vid recs.length ∧
      vid' = vid + recs.length ∧
      (∀ r ∈ recs, r.tid ∈ rows.map (fun rd => rd.tid) ∧
        r.cid = p.cellId r.tid r.attr ∧ r.attr ∈ p.activeAttrs) ∧
      (p.activeAttrs.Nodup → (rows.map (fun rd => rd.tid)).Nodup →
        (∀ t1 a1 t2 a2, a1 ∈ p.activeAttrs → a2 ∈ p.activeAttrs →
          p.cellId t1 a1 = p.cellId t2 a2 → t1 = t2 ∧ a1 = a2) →
        (recs.map (fun r => r.cid)).Nodup) := by
  intro rows
  induction rows with
  | nil =>
    intro vid rng recs vid' rng' h
    cases h
    exact ⟨rfl, rfl, by simp, by simp⟩
  | cons row rows ih =>
    intro vid rng recs vid' rng' h
    unfold phase1Rows at h
    cases h1 : phase1Attrs p row p.activeAttrs vid rng with
    | error v => rw [h1] at h; simp at h
    | ok out1 =>
      obtain ⟨recs1, vid1, rng1⟩ := out1
      rw [h1] at h
      dsimp only at h
      cases h2 : phase1Rows p rows vid1 rng1 with
      | error v => rw [h2] at h; simp at h
      | ok out2 =>
        obtain ⟨recs2, vid2, rng2⟩ := out2
        rw [h2] at h
        simp only [Except.ok.injEq, Prod.mk.injEq] at h
        obtain ⟨hrecs, hv2, _⟩ := h
        subst hrecs
        subst hv2
        obtain ⟨hvid1, hv1eq, hmem1, hnd1⟩ := phase1Attrs_out p.activeAttrs
          vid rng recs1 vid1 rng1 h1
        obtain ⟨hvid2, hv2eq, hmem2, hnd2⟩ := ih vid1 rng1 recs2 vid2 rng2 h2
        refine ⟨?_, ?_, ?_, ?_⟩
        · rw [List.map_append, hvid1, hvid2, hv1eq]
          rw [List.length_append]
          rw [List.range'_append_1]
          rw [Nat.add_comm recs2.length recs1.length]
        · rw [List.length_append]
          omega
        · intro r hr
          rcases List.mem_append.mp hr with hcase | hcase
          · obtain ⟨ht, hc, ha⟩ := hmem1 r hcase
            refine ⟨by rw [List.map_cons, ht]; simp, ?_, ha⟩
            rw [hc, ht]
          · obtain ⟨ht, hc, ha⟩ := hmem2 r hcase
            exact ⟨by rw [List.map_cons]; exact List.mem_cons_of_mem _ ht, hc, ha⟩
        · intro hattrs htids hinj
          rw [List.map_append]
          have htid_tail : (rows.map (fun rd => rd.tid)).Nodup :=
            List.Nodup.of_cons (by simpa using htids)
          have hrow_tid : row.tid ∉ rows.map (fun rd => rd.tid) :=
            (List.nodup_cons.mp (by simpa using htids)).1
          refine List.Nodup.append ?_ (hnd2 hattrs htid_tail hinj) ?_
          · have hcid_fun : recs1.map (fun r => r.cid)
                = (recs1.map (fun r => r.attr)).map (fun a => p.cellId row.tid a) := by
              rw [List.map_map]
              apply List.map_congr_left
              intro r hr
              obtain ⟨ht, hc, _⟩ := hmem1 r hr
              exact hc
            rw [hcid_fun]
            have hndattr := hnd1 hattrs
            rw [List.nodup_map_iff_inj_on hndattr]
            intro a1 ha1 a2 ha2 he
            obtain ⟨r1, hr1, hr1a⟩ := List.mem_map.mp ha1
            obtain ⟨r2, hr2, hr2a⟩ := List.mem_map.mp ha2
            have hm1 : a1 ∈ p.activeAttrs := by
              rw [← hr1a]; exact (hmem1 r1 hr1).2.2
            have hm2 : a2 ∈ p.activeAttrs := by
              rw [← hr2a]; exact (hmem1 r2 hr2).2.2
            exact (hinj row.tid a1 row.tid a2 hm1 hm2 he).2
          · intro c hc1 hc2
            rw [List.mem_map] at hc1 hc2
            obtain ⟨r1, hr1, hcid1⟩ := hc1
            obtain ⟨r2, hr2, hcid2⟩ := hc2
            obtain ⟨ht1, hc1', ha1⟩ := hmem1 r1 hr1
            obtain ⟨ht2, hc2', ha2⟩ := hmem2 r2 hr2
            have he : p.cellId row.tid r1.attr = p.cellId r2.tid r2.attr := by
              rw [← hc1', ← hc2', hcid1, hcid2]
            have := (hinj row.tid r1.attr r2.tid r2.attr ha1 ha2 he).1
            rw [← this] at ht2
            exact hrow_tid ht2

/-- Refinement never touches `_vid_` or `_cid_`. -/
theorem refineRow_vid_cid {dt2 wlt : ℚ} {md : ℕ} {preds : List (Val × ℚ)}
    {r r' : Record} (h : refineRow dt2 wlt md preds r = .ok r') :
    r'.vid = r.vid ∧ r'.cid = r.cid := by
  unfold refineRow at h
  by_cases hfix : r.fixed = CellStatus.single_value
  · rw [if_pos hfix] at h
    injection h with e
    rw [← e]
    exact ⟨rfl, rfl⟩
  · rw [if_neg hfix] at h
    dsimp only at h
    cases e1 : pyListIndex (withInit r.init_value (keptVals dt2 md preds))
        r.weak_label with
    | error e => rw [e1] at h; simp at h
    | ok i1 =>
      rw [e1] at h
      cases e2 : pyListIndex (withInit r.init_value (keptVals dt2 md preds))
          r.init_value with
      | error e => rw [e2] at h; simp at h
      | ok i2 =>
        rw [e2] at h
        dsimp only at h
        cases e3 : pyMaxE (filterOr dt2 preds) with
        | error e => rw [e3] at h; simp at h
        | ok best =>
          rw [e3] at h
          dsimp only at h
          split at h
          · cases e4 : pyListIndex (withInit r.init_value (keptVals dt2 md preds))
                best.1 with
            | error e => rw [e4] at h; simp at h
            | ok i3 =>
              rw [e4] at h
              injection h with e
              rw [← e]
              exact ⟨rfl, rfl⟩
          · injection h with e
            rw [← e]
            exact ⟨rfl, rfl⟩

theorem refineAll_vid_cid {dt2 wlt : ℚ} {md : ℕ} :
    ∀ (prs : List (List (Val × ℚ) × Record)) (out : List Record),
      refineAll dt2 wlt md prs = .ok out →
      out.map (fun r => (r.vid, r.cid))
        = prs.map (fun pr => (pr.2.vid, pr.2.cid)) := by
  intro prs
  induction prs with
  | nil =>
    intro out h
    cases h
    rfl
  | cons pr rest ih =>
    intro out h
    unfold refineAll at h
    cases h1 : refineRow dt2 wlt md pr.1 pr.2 with
    | error e => rw [h1] at h; simp at h
    | ok r1 =>
      rw [h1] at h
      cases h2 : refineAll dt2 wlt md rest with
      | error e => rw [h2] at h; simp at h
      | ok rs =>
        rw [h2] at h
        simp only [Except.ok.injEq] at h
        subst h
        obtain ⟨hv, hc⟩ := refineRow_vid_cid h1
        simp only [List.map_cons, hv, hc, ih rs h2]

theorem zip_snd_take {α β : Type} :
    ∀ (l1 : List α) (l2 : List β),
      (l1.zip l2).map Prod.snd = l2.take l1.length := by
  intro l1
  induction l1 with
  | nil => intro l2; simp
  | cons x xs ih =>
    intro l2
    cases l2 with
    | nil => simp
    | cons y ys => simp [List.zip_cons_cons, List.take_succ_cons, ih]

/-- **C7.** The `_vid_` values assigned in one run of `generate_domain`
form a dense, strictly increasing sequence starting at 0 with no gaps, in
the deterministic iteration order (tuple order, then attribute order, the
order in which the embedding folds), and the assigned vids are in 1:1
correspondence with the cids (the cid column is duplicate-free, so
`vid ↦ cid` is a bijection onto the emitted cids).  Hypotheses:
`get_cell_id` is injective in `(tid, attribute)` (modelled from the spec:
the cell id derivation identifies a `(tuple id, attribute)` pair), the
raw tuple ids are distinct, and the active attributes are distinct. -/
theorem claim_C7 :
    ∀ (p : GenParams) (rows : List RowData) (seed : ℕ)
      (predsByCell : List (List (Val × ℚ))) (out : List Record),
      (∀ t1 a1 t2 a2, a1 ∈ p.activeAttrs → a2 ∈ p.activeAttrs →
        p.cellId t1 a1 = p.cellId t2 a2 → t1 = t2 ∧ a1 = a2) →
      (rows.map (fun rd => rd.tid)).Nodup →
      p.activeAttrs.Nodup →
      generate_domain p rows seed predsByCell = .ok out →
      out.map (fun r => r.vid) = List.range out.length ∧
      (out.map (fun r => r.cid)).Nodup := by
  intro p rows seed preds out hinj htids hattrs h
  unfold generate_domain at h
  cases h1 : phase1Rows p rows 0 seed with
  | error v => rw [h1] at h; simp at h
  | ok out1 =>
    obtain ⟨recs, vidF, rngF⟩ := out1
    rw [h1] at h
    dsimp only at h
    obtain ⟨hvids, _, _, hcids⟩ := phase1Rows_out rows 0 seed recs vidF rngF h1
    have hvids' : recs.map (fun r => r.vid) = List.range recs.length := by
      rw [hvids, List.range_eq_range']
    have hcids' : (recs.map (fun r => r.cid)).Nodup := hcids hattrs htids hinj
    split at h
    · simp only [Except.ok.injEq] at h
      subst h
      exact ⟨hvids', hcids'⟩
    · have hpairs := refineAll_vid_cid (preds.zip recs) out h
      have hsnd : (preds.zip recs).map (fun pr => (pr.2.vid, pr.2.cid))
          = (recs.take preds.length).map (fun r => (r.vid, r.cid)) := by
        have := zip_snd_take preds recs
        calc (preds.zip recs).map (fun pr => (pr.2.vid, pr.2.cid))
            = ((preds.zip recs).map Prod.snd).map (fun r => (r.vid, r.cid)) := by
              rw [List.map_map]; rfl
          _ = (recs.take preds.length).map (fun r => (r.vid, r.cid)) := by rw [this]
      rw [hsnd] at hpairs
      have hlen : out.length = (recs.take preds.length).length := by
        have := congrArg List.length hpairs
        simpa using this
      constructor
      · have hfst : out.map (fun r => r.vid)
            = (recs.take preds.length).map (fun r => r.vid) := by
          calc out.map (fun r => r.vid)
              = (out.map (fun r => (r.vid, r.cid))).map Prod.fst := by
                rw [List.map_map]; rfl
            _ = ((recs.take preds.length).map (fun r => (r.vid, r.cid))).map Prod.fst := by
                rw [hpairs]
            _ = (recs.take preds.length).map (fun r => r.vid) := by
                rw [List.map_map]; rfl
        rw [hfst, List.map_take, hvids', List.take_range, hlen]
        simp [List.length_take]
      · have hsndc : out.map (fun r => r.cid)
            = (recs.take preds.length).map (fun r => r.cid) := by
          calc out.map (fun r => r.cid)
              = (out.map (fun r => (r.vid, r.cid))).map Prod.snd := by
                rw [List.map_map]; rfl
            _ = ((recs.take preds.length).map (fun r => (r.vid, r.cid))).map Prod.snd := by
                rw [hpairs]
            _ = (recs.take preds.length).map (fun r => r.cid) := by
                rw [List.map_map]; rfl
        rw [hsndc, List.map_take]
        exact (List.take_sublist _ _).nodup hcids'

/-- Witness for C7 at the concrete C1 run: one record, vid list `[0]`,
cid list `[0]` with no duplicates. -/
theorem claim_C7_witness :
    (∀ t1 a1 t2 a2, a1 ∈ c1Params.activeAttrs → a2 ∈ c1Params.activeAttrs →
      c1Params.cellId t1 a1 = c1Params.cellId t2 a2 → t1 = t2 ∧ a1 = a2) ∧
    (([c1Row] : List RowData).map (fun rd => rd.tid)).Nodup ∧
    c1Params.activeAttrs.Nodup ∧
    ([c1OutRec].map (fun r => r.vid) = List.range ([c1OutRec] : List Record).length ∧
      (([c1OutRec] : List Record).map (fun r => r.cid)).Nodup) := by
  have hinj : ∀ (t1 : ℤ) (a1 : Val) (t2 : ℤ) (a2 : Val),
      a1 ∈ c1Params.activeAttrs → a2 ∈ c1Params.activeAttrs →
      c1Params.cellId t1 a1 = c1Params.cellId t2 a2 → t1 = t2 ∧ a1 = a2 := by
    intro t1 a1 t2 a2 h1 h2 he
    simp only [c1Params, List.mem_singleton] at h1 h2
    subst h1
    subst h2
    exact ⟨he, rfl⟩
  refine ⟨hinj, by decide, by decide, ?_⟩
  exact claim_C7 c1Params [c1Row] 0 [[(("x" : Val), (3 : ℚ)), ("b0", 1)]] [c1OutRec]
    hinj (by decide) (by decide) rfl

/-! ### Reproducibility (C8)

`get_domain_cell` returns `list(domain)` for a Python `set` of strings,
and `get_random_domain` passes a `set` to `random.sample`; the iteration
order of a string set is decided by the per-process hash salt
(`PYTHONHASHSEED`), not by `random.seed(env['seed'])`.  Two runs that
agree on the data, the configuration and the configured seed but differ
in the (admissible, permutation-valued) set enumeration produce different
record batches — `List.reverse_perm` shows the second enumeration used
below is as legitimate an iteration order as the identity. -/

/-- Parameters identical in everything except the set-enumeration
function: one row, one active attribute `B`, one conditioning attribute
`A` with pruned candidates `x, y`; the `weak_label_thresh == 1 and
domain_thresh_2 == 0` shortcut makes the batch the first-pass output. -/
def c8Params (enum : List Val → List Val) : GenParams :=
  { isNull := fun _ => false,
    enum := enum,
    sampler := fun pool k s => ((dedupList pool).take k, s + 1),
    cellId := fun t _ => t,
    corr := fun a => if a = "B" then ["A"] else [],
    pps := fun c a => if c = "A" ∧ a = "B" then [("H", ["x", "y"])] else [],
    singleStats := fun a => if a = "B" then [("x", 2), ("b0", 1)] else [],
    activeAttrs := ["B"],
    maxSample := 5,
    weakLabelThresh := 1,
    domainThresh2 := 0,
    maxDomain := 10 }

/-- The raw-data row for the C8 counterexample. -/
def c8Row : RowData :=
  { tid := 0, cells := fun a => if a = "A" then "H" else if a = "B" then "b0" else "" }

/-- **C8, counterexample.**  Identical input data, identical
configuration and the same seed, yet the two runs — differing only in
the interpreter's set-iteration order, which is *not* fixed by the
configured seed — produce different DomainRecord batches (the domain
lists `[x, y, b0]` and `[b0, y, x]` and the derived indices differ), so
domain generation is not byte-identical as a function of data,
configuration and seed alone. -/
theorem claim_C8_counterexample :
    okRecords (generate_domain (c8Params (fun l => l)) [c8Row] 0 [])
      ≠ okRecords (generate_domain (c8Params List.reverse) [c8Row] 0 []) := by
  decide

/-- **C8, amended.**  Given identical input data, identical
configuration, the same seed, *and the same interpreter behavior* (the
set-enumeration order and sampling function carried in `GenParams`), two
runs of domain generation produce byte-identical DomainRecord batches:
the embedding routes every source of randomness through these inputs, so
the output is a function of them. -/
theorem claim_C8 :
    ∀ (p1 p2 : GenParams) (rows1 rows2 : List RowData) (seed1 seed2 : ℕ)
      (preds1 preds2 : List (List (Val × ℚ))),
      p1 = p2 → rows1 = rows2 → seed1 = seed2 → preds1 = preds2 →
      generate_domain p1 rows1 seed1 preds1
        = generate_domain p2 rows2 seed2 preds2 := by
  intro p1 p2 rows1 rows2 seed1 seed2 preds1 preds2 hp hr hs hpr
  subst hp
  subst hr
  subst hs
  subst hpr
  rfl

/-- Witness for C8's amended theorem at the concrete parameters of the
counterexample (same enumeration on both sides). -/
theorem claim_C8_witness :
    c8Params (fun l => l) = c8Params (fun l => l) ∧
    ([c8Row] : List RowData) = [c8Row] ∧ (0 : ℕ) = 0 ∧
    ([] : List (List (Val × ℚ))) = [] ∧
    generate_domain (c8Params (fun l => l)) [c8Row] 0 []
      = generate_domain (c8Params (fun l => l)) [c8Row] 0 [] :=
  ⟨rfl, rfl, rfl, rfl,
    claim_C8 (c8Params (fun l => l)) (c8Params (fun l => l)) [c8Row] [c8Row]
      0 0 [] [] rfl rfl rfl rfl⟩

/-! ## Correlation Analyzer (`get_corr_attributes`, lines 156-173) -/

/-- `get_corr_attributes(attr, thres)`: on a cache miss, read the
correlation column for `attr` (when present), keep the attributes whose
absolute correlation strictly exceeds the threshold, drop `attr` itself,
and memoize under the key `(attr, thres)`; on a hit, return the cached
list unchanged.  `correlations` is the correlation DataFrame: column name
to (row name, coefficient) pairs. -/
def get_corr_attributes (correlations : List (Val × List (Val × ℚ)))
    (cache : List ((Val × ℚ) × List Val)) (attr : Val) (thres : ℚ) :
    List Val × List ((Val × ℚ) × List Val) :=
  match lookupA cache (attr, thres) with
  | some res => (res, cache)
  | none =>
    match lookupA correlations attr with
    | none => ([], cache ++ [((attr, thres), [])])
    | some col =>
      ((((col.filter (fun rc => decide (thres < |rc.2|))).map (fun rc => rc.1)).filter
          (fun a => decide (a ≠ attr))),
        cache ++ [((attr, thres),
          (((col.filter (fun rc => decide (thres < |rc.2|))).map (fun rc => rc.1)).filter
            (fun a => decide (a ≠ attr))))])

theorem lookupA_append_single {κ β : Type} [DecidableEq κ]
    {m : List (κ × β)} {k : κ} (v : β) (h : lookupA m k = none) :
    lookupA (m ++ [(k, v)]) k = some v := by
  unfold lookupA at h ⊢
  induction m with
  | nil => simp
  | cons e m ih =>
    by_cases he : e.1 = k
    · rw [List.find?_cons_of_pos _ (by simpa using he)] at h
      simp at h
    · rw [List.find?_cons_of_neg _ (by simpa using he)] at h
      rw [List.cons_append, List.find?_cons_of_neg _ (by simpa using he)]
      exact ih h

/-- **C6.** For every attribute and threshold, `get_corr_attributes`
returns exactly the attributes whose absolute correlation with the
attribute strictly exceeds the threshold, excluding the attribute itself;
any name without a binding in the correlation matrix row — in particular
a bookkeeping/row-id column such as `_tid_`, which `find_correlations`
never feeds into the matrix — cannot appear in the result; and the result
is memoized per `(attribute, threshold)` key, so a repeated call returns
the identical result and leaves the cache unchanged. -/
theorem claim_C6 :
    ∀ (correlations : List (Val × List (Val × ℚ)))
      (cache : List ((Val × ℚ) × List Val)) (attr : Val) (thres : ℚ),
      (lookupA cache (attr, thres) = none →
        ∀ col, lookupA correlations attr = some col →
          (∀ a, a ∈ (get_corr_attributes correlations cache attr thres).1 ↔
            ((∃ c, (a, c) ∈ col ∧ thres < |c|) ∧ a ≠ attr)) ∧
          (∀ b, (∀ c, (b, c) ∉ col) →
            b ∉ (get_corr_attributes correlations cache attr thres).1)) ∧
      (lookupA cache (attr, thres) = none → lookupA correlations attr = none →
        (get_corr_attributes correlations cache attr thres).1 = []) ∧
      (get_corr_attributes correlations
          ((get_corr_attributes correlations cache attr thres).2) attr thres
        = get_corr_attributes correlations cache attr thres) := by
  intro correlations cache attr thres
  refine ⟨?_, ?_, ?_⟩
  · intro hnone col hcol
    have hres : (get_corr_attributes correlations cache attr thres).1
        = (((col.filter (fun rc => decide (thres < |rc.2|))).map (fun rc => rc.1)).filter
            (fun a => decide (a ≠ attr))) := by
      unfold get_corr_attributes
      rw [hnone, hcol]
    constructor
    · intro a
      rw [hres]
      simp only [List.mem_filter, List.mem_map, List.mem_filter, decide_eq_true_eq]
      constructor
      · rintro ⟨⟨rc, ⟨hrcmem, hrcabs⟩, hrca⟩, hne⟩
        exact ⟨⟨rc.2, by rw [← hrca]; exact hrcmem, hrcabs⟩, hne⟩
      · rintro ⟨⟨c, hmem, habs⟩, hne⟩
        exact ⟨⟨(a, c), ⟨hmem, habs⟩, rfl⟩, hne⟩
    · intro b hbno hbmem
      rw [hres] at hbmem
      simp only [List.mem_filter, List.mem_map, List.mem_filter, decide_eq_true_eq] at hbmem
      obtain ⟨⟨rc, ⟨hrcmem, _⟩, hrcb⟩, _⟩ := hbmem
      exact hbno rc.2 (by rw [← hrcb]; exact hrcmem)
  · intro hnone hcorr
    unfold get_corr_attributes
    rw [hnone, hcorr]
  · cases hcache : lookupA cache (attr, thres) with
    | some res =>
      have h1 : get_corr_attributes correlations cache attr thres = (res, cache) := by
        unfold get_corr_attributes
        rw [hcache]
      rw [h1]
      unfold get_corr_attributes
      rw [hcache]
    | none =>
      cases hcorr : lookupA correlations attr with
      | none =>
        show get_corr_attributes correlations
            ((get_corr_attributes correlations cache attr thres).2) attr thres = _
        have h2 : (get_corr_attributes correlations cache attr thres).2
            = cache ++ [((attr, thres), [])] := by
          unfold get_corr_attributes
          rw [hcache, hcorr]
        have h1 : (get_corr_attributes correlations cache attr thres)
            = ([], cache ++ [((attr, thres), [])]) := by
          unfold get_corr_attributes
          rw [hcache, hcorr]
        rw [h2, h1]
        unfold get_corr_attributes
        rw [lookupA_append_single [] hcache]
      | some col =>
        have h1 : (get_corr_attributes correlations cache attr thres)
            = ((((col.filter (fun rc => decide (thres < |rc.2|))).map
                  (fun rc => rc.1)).filter (fun a => decide (a ≠ attr))),
              cache ++ [((attr, thres),
                (((col.filter (fun rc => decide (thres < |rc.2|))).map
                  (fun rc => rc.1)).filter (fun a => decide (a ≠ attr))))]) := by
          unfold get_corr_attributes
          rw [hcache, hcorr]
        rw [h1]
        unfold get_corr_attributes
        rw [lookupA_append_single _ hcache]

/-- The correlation matrix used by the C6 witness. -/
def c6Corr : List (Val × List (Val × ℚ)) :=
  [("A", [("A", 1), ("B", 1), ("C", -2)])]

/-- Witness for C6 at a concrete matrix: for attribute `A` with
threshold 0 the result contains exactly `B` and `C`, never a name absent
from the matrix row (such as `_tid_`), and the second call is a cache
hit returning the identical pair. -/
theorem claim_C6_witness :
    lookupA ([] : List ((Val × ℚ) × List Val)) (("A" : Val), (0 : ℚ)) = none ∧
    lookupA c6Corr "A" = some [("A", 1), ("B", 1), ("C", -2)] ∧
    ((∀ a, a ∈ (get_corr_attributes c6Corr [] "A" 0).1 ↔
        ((∃ c, (a, c) ∈ [(("A" : Val), (1 : ℚ)), ("B", 1), ("C", -2)] ∧ (0 : ℚ) < |c|)
          ∧ a ≠ "A")) ∧
      (∀ b, (∀ c, (b, c) ∉ [(("A" : Val), (1 : ℚ)), ("B", 1), ("C", -2)]) →
        b ∉ (get_corr_attributes c6Corr [] "A" 0).1)) ∧
    (get_corr_attributes c6Corr ((get_corr_attributes c6Corr [] "A" 0).2) "A" 0
      = get_corr_attributes c6Corr [] "A" 0) :=
  ⟨rfl, rfl,
    (claim_C6 c6Corr [] "A" 0).1 rfl [("A", 1), ("B", 1), ("C", -2)] rfl,
    (claim_C6 c6Corr [] "A" 0).2.2⟩

/-! ## Co-occurrence Featurizer (`repair/featurize/occurattrfeat.py`) -/

/-- One cell's feature tensor: `torch.zeros(1, classes, num_feats)`
without the leading batch dimension — a `classes × num_feats` matrix. -/
def zerosT (rows cols : ℕ) : List (List ℚ) :=
  List.replicate rows (List.replicate cols 0)

/-- `tensor[0][i][j] = x` (out-of-range writes are no-ops in the model;
in the session they never occur because every written row index is below
`classes` and every channel index below `num_feats`). -/
def writeT (T : List (List ℚ)) (i j : ℕ) (x : ℚ) : List (List ℚ) :=
  T.set i ((T.getD i []).set j x)

/-- Read entry `(i, j)` of a tensor (0 outside the allocated shape). -/
def readT (T : List (List ℚ)) (i j : ℕ) : ℚ :=
  (T.getD i []).getD j 0

/-- Helper for `rv_domain_idx = {val: idx for idx, val in enumerate(domain)}`:
the dict comprehension keeps the *last* index of a repeated value. -/
def pyDictIdxAux (v : Val) : List Val → ℕ → Option ℕ
  | [], _ => none
  | x :: xs, i =>
    match pyDictIdxAux v xs (i + 1) with
    | some k => some k
    | none => if x = v then some i else none

/-- `rv_domain_idx[v]` (`none` models absence from the dict). -/
def pyDictIdx (l : List Val) (v : Val) : Option ℕ :=
  pyDictIdxAux v l 0

/-- The write loop of `gen_feat_tensor` (lines 80-84): for every
candidate, compute `count2 / count1` with `count2 = all_vals.get(v, 0)`
and store it at the candidate's domain index on the feature channel,
skipping candidates outside the domain index. -/
def candFold (count1 : ℚ) (allVals : List (Val × ℕ)) (domain : List Val)
    (featIdx : ℕ) (T : List (List ℚ)) (candidates : List Val) :
    List (List ℚ) :=
  candidates.foldl (fun T2 rvVal =>
    match pyDictIdx domain rvVal with
    | some i => writeT T2 i featIdx ((((lookupA allVals rvVal).getD 0 : ℕ) : ℚ) / count1)
    | none => T2) T

/-- Processing of one `attr` inside `gen_feat_tensor` (lines 58-84):
skip pairs without a feature channel; for a non-null conditioning value,
a missing entry in the pairwise statistics raises exactly when the cell's
own value is non-null and is tolerated otherwise; on a hit, score either
the observed co-occurring values (when at most as many as the distinct
domain values) or the whole domain. -/
def featAttrStep (isNull : Val → Bool) (pairIdx : Val × Val → Option ℕ)
    (singleStats : Val → Val → ℕ)
    (pairStats : Val → Val → List (Val × List (Val × ℕ)))
    (rvAttr : Val) (domain : List Val) (tuple : Val → Val)
    (T : List (List ℚ)) (attr : Val) : Except String (List (List ℚ)) :=
  match pairIdx (rvAttr, attr) with
  | none => .ok T
  | some featIdx =>
    if attr ≠ rvAttr ∧ ¬ isNull (tuple attr) then
      match lookupA (pairStats attr rvAttr) (tuple attr) with
      | none =>
        if ¬ isNull (tuple rvAttr) then
          .error "Something is wrong with the pairwise statistics."
        else .ok T
      | some allVals =>
        .ok (candFold ((singleStats attr (tuple attr) : ℕ) : ℚ) allVals domain
          featIdx T
          (if allVals.length ≤ (dedupList domain).length then
            allVals.map (fun e => e.1)
          else domain))
    else .ok T

/-- The loop over `self.all_attrs` of `gen_feat_tensor`. -/
def featFold (isNull : Val → Bool) (pairIdx : Val × Val → Option ℕ)
    (singleStats : Val → Val → ℕ)
    (pairStats : Val → Val → List (Val × List (Val × ℕ)))
    (rvAttr : Val) (domain : List Val) (tuple : Val → Val) :
    List Val → List (List ℚ) → Except String (List (List ℚ))
  | [], T => .ok T
  | a :: as, T =>
    match featAttrStep isNull pairIdx singleStats pairStats rvAttr domain tuple T a with
    | .error e => .error e
    | .ok T' => featFold isNull pairIdx singleStats pairStats rvAttr domain tuple as T'

/-- `gen_feat_tensor` (lines 53-85): a `classes × num_feats` zero tensor
filled channel by channel over all attributes.  The record's
`'|||'`-joined domain string is carried as the list of values it joins. -/
def gen_feat_tensor (isNull : Val → Bool) (pairIdx : Val × Val → Option ℕ)
    (singleStats : Val → Val → ℕ)
    (pairStats : Val → Val → List (Val × List (Val × ℕ)))
    (classes numFeats : ℕ) (allAttrs : List Val) (rvAttr : Val)
    (domain : List Val) (tuple : Val → Val) : Except String (List (List ℚ)) :=
  featFold isNull pairIdx singleStats pairStats rvAttr domain tuple allAttrs
    (zerosT classes numFeats)

/-- The variant of `featAttrStep` that always scores every domain value
(the `candidates = domain` branch taken unconditionally). -/
def featAttrStepAll (isNull : Val → Bool) (pairIdx : Val × Val → Option ℕ)
    (singleStats : Val → Val → ℕ)
    (pairStats : Val → Val → List (Val × List (Val × ℕ)))
    (rvAttr : Val) (domain : List Val) (tuple : Val → Val)
    (T : List (List ℚ)) (attr : Val) : Except String (List (List ℚ)) :=
  match pairIdx (rvAttr, attr) with
  | none => .ok T
  | some featIdx =>
    if attr ≠ rvAttr ∧ ¬ isNull (tuple attr) then
      match lookupA (pairStats attr rvAttr) (tuple attr) with
      | none =>
        if ¬ isNull (tuple rvAttr) then
          .error "Something is wrong with the pairwise statistics."
        else .ok T
      | some allVals =>
        .ok (candFold ((singleStats attr (tuple attr) : ℕ) : ℚ) allVals domain
          featIdx T domain)
    else .ok T

def featFoldAll (isNull : Val → Bool) (pairIdx : Val × Val → Option ℕ)
    (singleStats : Val → Val → ℕ)
    (pairStats : Val → Val → List (Val × List (Val × ℕ)))
    (rvAttr : Val) (domain : List Val) (tuple : Val → Val) :
    List Val → List (List ℚ) → Except String (List (List ℚ))
  | [], T => .ok T
  | a :: as, T =>
    match featAttrStepAll isNull pairIdx singleStats pairStats rvAttr domain tuple T a with
    | .error e => .error e
    | .ok T' => featFoldAll isNull pairIdx singleStats pairStats rvAttr domain tuple as T'

/-- `gen_feat_tensor` with the branch on line 76 replaced by always
scoring every domain value. -/
def gen_feat_tensor_alldom (isNull : Val → Bool) (pairIdx : Val × Val → Option ℕ)
    (singleStats : Val → Val → ℕ)
    (pairStats : Val → Val → List (Val × List (Val × ℕ)))
    (classes numFeats : ℕ) (allAttrs : List Val) (rvAttr : Val)
    (domain : List Val) (tuple : Val → Val) : Except String (List (List ℚ)) :=
  featFoldAll isNull pairIdx singleStats pairStats rvAttr domain tuple allAttrs
    (zerosT classes numFeats)

/-! ### C5: missing-statistics handling in both components -/

/-- **C5.** During per-cell domain generation — and mirrored in the
co-occurrence featurizer — when a non-missing conditioning value has no
entry in the pruned (respectively pairwise) co-occurrence map, the
operation raises exactly when the cell's own value for the target
attribute is non-missing; when the cell's own value is missing, the
absence is tolerated silently and the candidate set (respectively the
tensor) is left unchanged for that conditioning attribute. -/
theorem claim_C5 :
    ∀ (isNull : Val → Bool) (pps : Val → Val → List (Val × List Val))
      (attr : Val) (row : RowData) (dom : List Val) (condAttr : Val)
      (pairIdx : Val × Val → Option ℕ) (singleStats : Val → Val → ℕ)
      (pairStats : Val → Val → List (Val × List (Val × ℕ)))
      (rvAttr : Val) (domain : List Val) (tuple : Val → Val)
      (T : List (List ℚ)) (attrF : Val) (featIdx : ℕ),
      (¬ condAttr = attr → ¬ condAttr = "index" → ¬ condAttr = "_tid_" →
        isNull (row.cells condAttr) = false →
        pps condAttr attr ≠ [] →
        lookupA (pps condAttr attr) (row.cells condAttr) = none →
        (((∃ v, domStep isNull pps attr row dom condAttr = .err v) ↔
            isNull (row.cells attr) = false) ∧
          (isNull (row.cells attr) = true →
            domStep isNull pps attr row dom condAttr = .cont dom))) ∧
      (pairIdx (rvAttr, attrF) = some featIdx →
        ¬ attrF = rvAttr →
        isNull (tuple attrF) = false →
        lookupA (pairStats attrF rvAttr) (tuple attrF) = none →
        (((∃ e, featAttrStep isNull pairIdx singleStats pairStats rvAttr domain
              tuple T attrF = .error e) ↔ isNull (tuple rvAttr) = false) ∧
          (isNull (tuple rvAttr) = true →
            featAttrStep isNull pairIdx singleStats pairStats rvAttr domain
              tuple T attrF = .ok T))) := by
  intro isNull pps attr row dom condAttr pairIdx singleStats pairStats rvAttr
    domain tuple T attrF featIdx
  constructor
  · intro h1 h2 h3 hnn hne hlk
    have hstep : domStep isNull pps attr row dom condAttr
        = if isNull (row.cells attr) then .cont dom else .err (row.cells condAttr) := by
      unfold domStep
      rw [if_neg (by simp [h1, h2, h3]), if_neg (by simp [hnn]), if_neg hne, hlk]
    constructor
    · constructor
      · rintro ⟨v, hv⟩
        rw [hstep] at hv
        by_cases hn : isNull (row.cells attr)
        · rw [if_pos hn] at hv; cases hv
        · simpa using hn
      · intro hn
        rw [hstep, if_neg (by simp [hn])]
        exact ⟨row.cells condAttr, rfl⟩
    · intro hn
      rw [hstep, if_pos (by simp [hn])]
  · intro hpi hne hnn hlk
    have hstep : featAttrStep isNull pairIdx singleStats pairStats rvAttr domain
        tuple T attrF
        = if isNull (tuple rvAttr) then .ok T
          else .error "Something is wrong with the pairwise statistics." := by
      unfold featAttrStep
      rw [hpi]
      dsimp only
      rw [if_pos (show ¬ attrF = rvAttr ∧ ¬ isNull (tuple attrF) = true from
        ⟨hne, by simp [hnn]⟩)]
      rw [hlk]
      by_cases hn : isNull (tuple rvAttr) = true
      · rw [if_neg (by simp [hn]), if_pos hn]
      · rw [if_pos (by simpa using hn), if_neg hn]
    constructor
    · constructor
      · rintro ⟨e, he⟩
        rw [hstep] at he
        by_cases hn : isNull (tuple rvAttr)
        · rw [if_pos hn] at he; cases he
        · simpa using hn
      · intro hn
        rw [hstep, if_neg (by simp [hn])]
        exact ⟨_, rfl⟩
    · intro hn
      rw [hstep, if_pos (by simp [hn])]

/-- Witness for C5 at concrete inputs: a conditioning value `q` absent
from both maps, with a missing own value on the domain-generation side
(tolerated) and a non-missing own value on the featurizer side (raised). -/
theorem claim_C5_witness :
    (¬ ("C" : Val) = "B" ∧ ¬ ("C" : Val) = "index" ∧ ¬ ("C" : Val) = "_tid_" ∧
      (fun v => decide (v = "")) (RowData.cells ⟨0, fun a => if a = "C" then "q" else ""⟩ "C") = false ∧
      (fun c a => if c = "C" ∧ a = "B" then [(("h" : Val), ["x"])] else []) "C" "B" ≠ [] ∧
      lookupA ((fun c a => if c = "C" ∧ a = "B" then [(("h" : Val), ["x"])] else []) "C" "B")
        (RowData.cells ⟨0, fun a => if a = "C" then "q" else ""⟩ "C") = none) ∧
    ((∃ v, domStep (fun v => decide (v = ""))
        (fun c a => if c = "C" ∧ a = "B" then [(("h" : Val), ["x"])] else [])
        "B" ⟨0, fun a => if a = "C" then "q" else ""⟩ [] "C" = .err v) ↔
      (fun v => decide (v = ""))
        (RowData.cells ⟨0, fun a => if a = "C" then "q" else ""⟩ "B") = false) ∧
    ((fun v => decide (v = ""))
        (RowData.cells ⟨0, fun a => if a = "C" then "q" else ""⟩ "B") = true →
      domStep (fun v => decide (v = ""))
        (fun c a => if c = "C" ∧ a = "B" then [(("h" : Val), ["x"])] else [])
        "B" ⟨0, fun a => if a = "C" then "q" else ""⟩ [] "C" = .cont []) := by
  refine ⟨⟨by decide, by decide, by decide, by decide, by simp, by decide⟩, ?_⟩
  exact (claim_C5 (fun v => decide (v = ""))
      (fun c a => if c = "C" ∧ a = "B" then [(("h" : Val), ["x"])] else [])
      "B" ⟨0, fun a => if a = "C" then "q" else ""⟩ [] "C"
      (fun _ => none) (fun _ _ => 0) (fun _ _ => []) "B" [] (fun _ => "") [] "A" 0).1
    (by decide) (by decide) (by decide) (by decide) (by simp) (by decide)

/-! ### Tensor read/write lemmas -/

theorem getD_set_self {α : Type} {l : List α} {i : ℕ} {a d : α}
    (h : i < l.length) : (l.set i a).getD i d = a := by
  rw [List.getD_eq_getElem?_getD, List.getElem?_set_self h]
  rfl

theorem getD_set_ne {α : Type} {l : List α} {i i' : ℕ} {a d : α}
    (h : i ≠ i') : (l.set i a).getD i' d = l.getD i' d := by
  rw [List.getD_eq_getElem?_getD, List.getElem?_set_ne h,
    ← List.getD_eq_getElem?_getD]

theorem writeT_length (T : List (List ℚ)) (i j : ℕ) (x : ℚ) :
    (writeT T i j x).length = T.length := by
  simp [writeT]

theorem writeT_getD_rowlen (T : List (List ℚ)) (i j : ℕ) (x : ℚ) (i' : ℕ) :
    ((writeT T i j x).getD i' []).length = (T.getD i' []).length := by
  unfold writeT
  by_cases hi : i = i'
  · subst hi
    by_cases hlen : i < T.length
    · rw [getD_set_self hlen]
      simp
    · rw [List.set_eq_of_length_le (by omega)]
  · rw [getD_set_ne hi]

theorem readT_write_ne {T : List (List ℚ)} {i j i' j' : ℕ} {x : ℚ}
    (h : i' ≠ i ∨ j' ≠ j) :
    readT (writeT T i j x) i' j' = readT T i' j' := by
  unfold readT writeT
  rcases h with h | h
  · rw [getD_set_ne (fun he => h he.symm)]
  · by_cases hi : i = i'
    · subst hi
      by_cases hlen : i < T.length
      · rw [getD_set_self hlen]
        rw [getD_set_ne (fun he => h he.symm)]
      · rw [List.set_eq_of_length_le (by omega)]
    · rw [getD_set_ne hi]

theorem readT_write_self {T : List (List ℚ)} {i j : ℕ} {x : ℚ}
    (hi : i < T.length) (hj : j < (T.getD i []).length) :
    readT (writeT T i j x) i j = x := by
  unfold readT writeT
  rw [getD_set_self hi, getD_set_self hj]

theorem readT_oob_row {T : List (List ℚ)} {i j : ℕ}
    (h : (T.getD i []).length ≤ j) : readT T i j = 0 := by
  unfold readT
  rw [List.getD_eq_getElem?_getD, List.getElem?_eq_none h]
  rfl

/-! ### `pyDictIdx` lemmas -/

theorem pyDictIdxAux_get {v : Val} :
    ∀ (l : List Val) (k i : ℕ), pyDictIdxAux v l k = some i →
      k ≤ i ∧ l.get? (i - k) = some v := by
  intro l
  induction l with
  | nil => intro k i h; cases h
  | cons x xs ih =>
    intro k i h
    unfold pyDictIdxAux at h
    revert h
    cases haux : pyDictIdxAux v xs (k + 1) with
    | some k' =>
      dsimp only
      intro h
      injection h with h
      subst h
      obtain ⟨hle, hget⟩ := ih (k + 1) k' haux
      refine ⟨by omega, ?_⟩
      have hsub : k' - k = (k' - (k + 1)) + 1 := by omega
      rw [hsub]
      simpa using hget
    | none =>
      dsimp only
      by_cases hxv : x = v
      · rw [if_pos hxv]
        intro h
        injection h with h
        subst h
        refine ⟨le_refl _, ?_⟩
        simp [hxv]
      · rw [if_neg hxv]
        intro h
        cases h

theorem pyDictIdx_get {l : List Val} {v : Val} {i : ℕ}
    (h : pyDictIdx l v = some i) : l.get? i = some v := by
  have := pyDictIdxAux_get l 0 i h
  simpa using this.2

theorem pyDictIdxAux_none {v : Val} :
    ∀ (l : List Val) (k : ℕ), v ∉ l → pyDictIdxAux v l k = none := by
  intro l
  induction l with
  | nil => intro k _; rfl
  | cons x xs ih =>
    intro k hv
    unfold pyDictIdxAux
    rw [ih (k + 1) (fun hc => hv (List.mem_cons_of_mem _ hc))]
    show (if x = v then some k else none) = none
    rw [if_neg (fun he => hv (by rw [he]; simp))]

theorem pyDictIdxAux_nodup {v : Val} :
    ∀ (l : List Val) (k i : ℕ), l.Nodup → l.get? i = some v →
      pyDictIdxAux v l k = some (k + i) := by
  intro l
  induction l with
  | nil => intro k i _ h; simp at h
  | cons x xs ih =>
    intro k i hnd hget
    cases i with
    | zero =>
      have hx : x = v := by simpa using hget
      have hvnot : v ∉ xs := hx ▸ (List.nodup_cons.mp hnd).1
      unfold pyDictIdxAux
      rw [pyDictIdxAux_none xs (k + 1) hvnot]
      simp [hx]
    | succ j =>
      have hget2 : xs.get? j = some v := by simpa using hget
      unfold pyDictIdxAux
      rw [ih (k + 1) j (List.Nodup.of_cons hnd) hget2]
      show some (k + 1 + j) = some (k + (j + 1))
      congr 1
      omega

theorem pyDictIdx_nodup {l : List Val} {v : Val} {i : ℕ}
    (hnd : l.Nodup) (h : l.get? i = some v) : pyDictIdx l v = some i := by
  have := pyDictIdxAux_nodup l 0 i hnd h
  simpa [pyDictIdx] using this

theorem pyDictIdx_val_eq {l : List Val} {v w : Val} {i : ℕ}
    (hv : pyDictIdx l v = some i) (hw : pyDictIdx l w = some i) : v = w := by
  have h2 := (pyDictIdx_get hv).symm.trans (pyDictIdx_get hw)
  injection h2

theorem lookupA_none_of_not_mem {allVals : List (Val × ℕ)} {v : Val}
    (h : v ∉ allVals.map (fun e => e.1)) : lookupA allVals v = none := by
  unfold lookupA
  rw [List.find?_eq_none.mpr]
  · rfl
  · intro e he hc
    apply h
    rw [List.mem_map]
    exact ⟨e, he, by simpa using hc⟩

theorem readT_oob {T : List (List ℚ)} {i j : ℕ} (h : T.length ≤ i) :
    readT T i j = 0 := by
  have hrow : T.getD i [] = [] := by
    rw [List.getD_eq_getElem?_getD T i [], List.getElem?_eq_none h]
    rfl
  unfold readT
  rw [hrow]
  simp

/-- Two tensors with the same shape and the same reads are equal. -/
theorem tensor_ext {T1 T2 : List (List ℚ)}
    (hlen : T1.length = T2.length)
    (hrow : ∀ i, (T1.getD i []).length = (T2.getD i []).length)
    (hread : ∀ i j, readT T1 i j = readT T2 i j) : T1 = T2 := by
  apply List.ext_get hlen
  intro n h1 h2
  have hT1n : T1.getD n [] = T1.get ⟨n, h1⟩ := by
    rw [List.getD_eq_getElem?_getD T1 n [], List.getElem?_eq_getElem h1]
    simp [List.get_eq_getElem]
  have hT2n : T2.getD n [] = T2.get ⟨n, h2⟩ := by
    rw [List.getD_eq_getElem?_getD T2 n [], List.getElem?_eq_getElem h2]
    simp [List.get_eq_getElem]
  have hrown : (T1.get ⟨n, h1⟩).length = (T2.get ⟨n, h2⟩).length := by
    have := hrow n
    rw [hT1n, hT2n] at this
    exact this
  apply List.ext_get hrown
  intro m hm1 hm2
  have hr := hread n m
  unfold readT at hr
  rw [hT1n, hT2n] at hr
  have e1 : (T1.get ⟨n, h1⟩).getD m 0 = (T1.get ⟨n, h1⟩).get ⟨m, hm1⟩ := by
    rw [List.getD_eq_getElem?_getD _ m 0, List.getElem?_eq_getElem hm1]
    simp [List.get_eq_getElem]
  have e2 : (T2.get ⟨n, h2⟩).getD m 0 = (T2.get ⟨n, h2⟩).get ⟨m, hm2⟩ := by
    rw [List.getD_eq_getElem?_getD _ m 0, List.getElem?_eq_getElem hm2]
    simp [List.get_eq_getElem]
  rw [e1, e2] at hr
  exact hr

theorem pyDictIdx_isSome_of_mem {v : Val} :
    ∀ {l : List Val}, v ∈ l → ∃ k, pyDictIdx l v = some k := by
  intro l
  suffices h : ∀ (l : List Val) (s : ℕ), v ∈ l → ∃ k, pyDictIdxAux v l s = some k by
    intro hm
    exact h l 0 hm
  intro l
  induction l with
  | nil => intro s hm; simp at hm
  | cons x xs ih =>
    intro s hm
    unfold pyDictIdxAux
    by_cases hxs : v ∈ xs
    · obtain ⟨k, hk⟩ := ih (s + 1) hxs
      rw [hk]
      exact ⟨k, rfl⟩
    · have hx : x = v := by
        rcases List.mem_cons.mp hm with h | h
        · exact h.symm
        · exact absurd h hxs
      rw [pyDictIdxAux_none xs (s + 1) hxs]
      exact ⟨s, by simp [hx]⟩

theorem get?_lt_length {l : List Val} {i : ℕ} {v : Val}
    (h : l.get? i = some v) : i < l.length := by
  by_contra hc
  rw [List.get?_eq_none.mpr (by omega)] at h
  cases h

section CandFoldLemmas

variable (count1 : ℚ) (allVals : List (Val × ℕ)) (dom : List Val) (f : ℕ)

theorem candFold_cons (T : List (List ℚ)) (w : Val) (ws : List Val) :
    candFold count1 allVals dom f T (w :: ws)
      = candFold count1 allVals dom f
          (match pyDictIdx dom w with
           | some i => writeT T i f ((((lookupA allVals w).getD 0 : ℕ) : ℚ) / count1)
           | none => T) ws := rfl

theorem candFold_length :
    ∀ (cands : List Val) (T : List (List ℚ)),
      (candFold count1 allVals dom f T cands).length = T.length := by
  intro cands
  induction cands with
  | nil => intro T; rfl
  | cons w ws ih =>
    intro T
    cases hw : pyDictIdx dom w with
    | none =>
      rw [candFold_cons, hw]
      exact ih T
    | some iw =>
      rw [candFold_cons, hw]
      exact (ih _).trans (writeT_length _ _ _ _)

theorem candFold_rowlen :
    ∀ (cands : List Val) (T : List (List ℚ)) (i : ℕ),
      ((candFold count1 allVals dom f T cands).getD i []).length
        = ((T.getD i []).length) := by
  intro cands
  induction cands with
  | nil => intro T i; rfl
  | cons w ws ih =>
    intro T i
    cases hw : pyDictIdx dom w with
    | none =>
      rw [candFold_cons, hw]
      exact ih T i
    | some iw =>
      rw [candFold_cons, hw]
      exact (ih _ i).trans (writeT_getD_rowlen _ _ _ _ _)

theorem candFold_read_other :
    ∀ (cands : List Val) (T : List (List ℚ)) (i j : ℕ),
      (j ≠ f ∨ ∀ v ∈ cands, pyDictIdx dom v ≠ some i) →
      readT (candFold count1 allVals dom f T cands) i j = readT T i j := by
  intro cands
  induction cands with
  | nil => intro T i j _; rfl
  | cons w ws ih =>
    intro T i j hyp
    have hyp' : j ≠ f ∨ ∀ v ∈ ws, pyDictIdx dom v ≠ some i := by
      rcases hyp with h | h
      · exact Or.inl h
      · exact Or.inr (fun v hv => h v (List.mem_cons_of_mem _ hv))
    cases hw : pyDictIdx dom w with
    | none =>
      rw [candFold_cons, hw]
      exact ih T i j hyp'
    | some iw =>
      rw [candFold_cons, hw]
      refine (ih _ i j hyp').trans (readT_write_ne ?_)
      rcases hyp with h | h
      · exact Or.inr h
      · refine Or.inl (fun hii => ?_)
        exact h w (by simp) (by rw [hii]; exact hw)

theorem candFold_read_write :
    ∀ (cands : List Val) (T : List (List ℚ)) (v : Val) (i : ℕ),
      v ∈ cands → pyDictIdx dom v = some i →
      i < T.length → f < (T.getD i []).length →
      readT (candFold count1 allVals dom f T cands) i f
        = (((lookupA allVals v).getD 0 : ℕ) : ℚ) / count1 := by
  intro cands
  induction cands with
  | nil => intro T v i hv _ _ _; simp at hv
  | cons w ws ih =>
    intro T v i hv hidx hiT hfT
    by_cases hvws : v ∈ ws
    · cases hw : pyDictIdx dom w with
      | none =>
        rw [candFold_cons, hw]
        exact ih T v i hvws hidx hiT hfT
      | some iw =>
        rw [candFold_cons, hw]
        refine ih _ v i hvws hidx ?_ ?_
        · rw [writeT_length]; exact hiT
        · rw [writeT_getD_rowlen]; exact hfT
    · have hvw : v = w := by
        rcases List.mem_cons.mp hv with h | h
        · exact h
        · exact absurd h hvws
      subst hvw
      rw [candFold_cons, hidx]
      have hframe : ∀ u ∈ ws, pyDictIdx dom u ≠ some i := by
        intro u hu hc
        have : v = u := pyDictIdx_val_eq hidx hc
        rw [this] at hvws
        exact hvws hu
      rw [candFold_read_other count1 allVals dom f ws _ i f (Or.inr hframe)]
      exact readT_write_self hiT hfT

/-- The two branches of line 76-79 of `occurattrfeat.py` write the same
tensor whenever the feature channel starts out all-zero: scoring only the
observed co-occurring values leaves unobserved domain values at 0, and
scoring the whole domain writes `0/count1 = 0` into those same cells. -/
theorem candFold_branches_eq (T : List (List ℚ))
    (hcol : ∀ i, readT T i f = 0) :
    candFold count1 allVals dom f T (allVals.map (fun e => e.1))
      = candFold count1 allVals dom f T dom := by
  have hshapeA := candFold_length count1 allVals dom f (allVals.map (fun e => e.1))
  have hshapeB := candFold_length count1 allVals dom f dom
  have hrowA := candFold_rowlen count1 allVals dom f (allVals.map (fun e => e.1))
  have hrowB := candFold_rowlen count1 allVals dom f dom
  apply tensor_ext
  · rw [hshapeA T, hshapeB T]
  · intro i
    rw [hrowA T i, hrowB T i]
  · intro i j
    by_cases hjf : j = f
    swap
    · rw [candFold_read_other count1 allVals dom f _ T i j (Or.inl hjf),
        candFold_read_other count1 allVals dom f _ T i j (Or.inl hjf)]
    rw [hjf]
    cases hget : dom.get? i with
    | none =>
      have hframe : ∀ (cs : List Val), ∀ u ∈ cs, pyDictIdx dom u ≠ some i := by
        intro cs u _ hc
        rw [pyDictIdx_get hc] at hget
        cases hget
      rw [candFold_read_other count1 allVals dom f _ T i f (Or.inr (hframe _)),
        candFold_read_other count1 allVals dom f _ T i f (Or.inr (hframe _))]
    | some v =>
      have hvd : v ∈ dom := by
        rcases List.get?_eq_some.mp hget with ⟨hlt, hgv⟩
        rw [← hgv]
        exact List.get_mem _ _ _
      obtain ⟨i0, hi0⟩ := pyDictIdx_isSome_of_mem hvd
      by_cases hii : i0 = i
      swap
      · have hframe : ∀ (cs : List Val), ∀ u ∈ cs, pyDictIdx dom u ≠ some i := by
          intro cs u _ hc
          have hu : dom.get? i = some u := pyDictIdx_get hc
          rw [hget] at hu
          injection hu with hu
          rw [← hu] at hc
          rw [hi0] at hc
          injection hc with hc
          exact hii hc
        rw [candFold_read_other count1 allVals dom f _ T i f (Or.inr (hframe _)),
          candFold_read_other count1 allVals dom f _ T i f (Or.inr (hframe _))]
      subst hii
      by_cases hbound : i0 < T.length ∧ f < (T.getD i0 []).length
      swap
      · by_cases hlenT : i0 < T.length
        · have hflen : (T.getD i0 []).length ≤ f := by omega
          rw [readT_oob_row (by rw [hrowA T i0]; exact hflen),
            readT_oob_row (by rw [hrowB T i0]; exact hflen)]
        · rw [readT_oob (by rw [hshapeA T]; omega),
            readT_oob (by rw [hshapeB T]; omega)]
      obtain ⟨hb1, hb2⟩ := hbound
      have hB : readT (candFold count1 allVals dom f T dom) i0 f
          = (((lookupA allVals v).getD 0 : ℕ) : ℚ) / count1 :=
        candFold_read_write count1 allVals dom f dom T v i0 hvd hi0 hb1 hb2
      by_cases hvk : v ∈ allVals.map (fun e => e.1)
      · rw [hB, candFold_read_write count1 allVals dom f _ T v i0 hvk hi0 hb1 hb2]
      · have hframe : ∀ u ∈ allVals.map (fun e => e.1), pyDictIdx dom u ≠ some i0 := by
          intro u hu hc
          have : v = u := pyDictIdx_val_eq hi0 hc
          rw [this] at hvk
          exact hvk hu
        rw [hB, candFold_read_other count1 allVals dom f _ T i0 f (Or.inr hframe),
          hcol i0, lookupA_none_of_not_mem hvk]
        simp

end CandFoldLemmas

section FeatStepLemmas

variable (isNull : Val → Bool) (pairIdx : Val × Val → Option ℕ)
  (singleStats : Val → Val → ℕ)
  (pairStats : Val → Val → List (Val × List (Val × ℕ)))
  (rvAttr : Val) (domain : List Val) (tuple : Val → Val)

theorem featAttrStep_eq_all {T : List (List ℚ)} {a : Val}
    (h : ∀ fa, pairIdx (rvAttr, a) = some fa → ∀ i, readT T i fa = 0) :
    featAttrStep isNull pairIdx singleStats pairStats rvAttr domain tuple T a
      = featAttrStepAll isNull pairIdx singleStats pairStats rvAttr domain tuple T a := by
  unfold featAttrStep featAttrStepAll
  cases hp : pairIdx (rvAttr, a) with
  | none => rfl
  | some fa =>
    dsimp only
    split
    · cases hl : lookupA (pairStats a rvAttr) (tuple a) with
      | none => rfl
      | some allVals =>
        dsimp only
        split
        · rw [candFold_branches_eq ((singleStats a (tuple a) : ℕ) : ℚ) allVals
            domain fa T (h fa hp)]
        · rfl
    · rfl

theorem featAttrStep_shape {T T' : List (List ℚ)} {a : Val}
    (h : featAttrStep isNull pairIdx singleStats pairStats rvAttr domain tuple T a
      = .ok T') :
    T'.length = T.length ∧ ∀ i, (T'.getD i []).length = (T.getD i []).length := by
  unfold featAttrStep at h
  revert h
  cases hp : pairIdx (rvAttr, a) with
  | none =>
    intro h
    injection h with h
    subst h
    exact ⟨rfl, fun _ => rfl⟩
  | some fa =>
    dsimp only
    split
    · cases hl : lookupA (pairStats a rvAttr) (tuple a) with
      | none =>
        dsimp only
        split
        · intro h; cases h
        · intro h
          injection h with h
          subst h
          exact ⟨rfl, fun _ => rfl⟩
      | some allVals =>
        dsimp only
        intro h
        injection h with h
        subst h
        exact ⟨candFold_length _ _ _ _ _ _, fun i => candFold_rowlen _ _ _ _ _ _ i⟩
    · intro h
      injection h with h
      subst h
      exact ⟨rfl, fun _ => rfl⟩

theorem featAttrStep_read_frame {T T' : List (List ℚ)} {a : Val}
    (h : featAttrStep isNull pairIdx singleStats pairStats rvAttr domain tuple T a
      = .ok T') (i j : ℕ)
    (hj : ∀ fa, pairIdx (rvAttr, a) = some fa → j ≠ fa) :
    readT T' i j = readT T i j := by
  unfold featAttrStep at h
  revert h
  cases hp : pairIdx (rvAttr, a) with
  | none =>
    intro h
    injection h with h
    subst h
    rfl
  | some fa =>
    dsimp only
    split
    · cases hl : lookupA (pairStats a rvAttr) (tuple a) with
      | none =>
        dsimp only
        split
        · intro h; cases h
        · intro h
          injection h with h
          subst h
          rfl
      | some allVals =>
        dsimp only
        intro h
        injection h with h
        subst h
        exact candFold_read_other _ _ _ _ _ _ i j (Or.inl (hj fa hp))
    · intro h
      injection h with h
      subst h
      rfl

theorem featFold_eq_all :
    ∀ (attrs : List Val) (T : List (List ℚ)),
      attrs.Nodup →
      (∀ a b fa fb, a ∈ attrs → b ∈ attrs → pairIdx (rvAttr, a) = some fa →
        pairIdx (rvAttr, b) = some fb → a ≠ b → fa ≠ fb) →
      (∀ a ∈ attrs, ∀ fa, pairIdx (rvAttr, a) = some fa → ∀ i, readT T i fa = 0) →
      featFold isNull pairIdx singleStats pairStats rvAttr domain tuple attrs T
        = featFoldAll isNull pairIdx singleStats pairStats rvAttr domain tuple attrs T := by
  intro attrs
  induction attrs with
  | nil => intro T _ _ _; rfl
  | cons a as ih =>
    intro T hnd hinj hcol
    unfold featFold featFoldAll
    rw [← featAttrStep_eq_all isNull pairIdx singleStats pairStats rvAttr domain
      tuple (fun fa hfa => hcol a (by simp) fa hfa)]
    cases hstep : featAttrStep isNull pairIdx singleStats pairStats rvAttr domain
        tuple T a with
    | error e => rfl
    | ok T' =>
      dsimp only
      apply ih
      · exact List.Nodup.of_cons hnd
      · intro a' b' fa fb ha hb hfa hfb hne
        exact hinj a' b' fa fb (List.mem_cons_of_mem _ ha)
          (List.mem_cons_of_mem _ hb) hfa hfb hne
      · intro b hb fb hfb i
        have hbne : b ≠ a := by
          intro he
          rw [he] at hb
          exact (List.nodup_cons.mp hnd).1 hb
        have hjne : ∀ fa, pairIdx (rvAttr, a) = some fa → fb ≠ fa := by
          intro fa hfa
          exact hinj b a fb fa (List.mem_cons_of_mem _ hb) (by simp) hfb hfa hbne
        rw [featAttrStep_read_frame isNull pairIdx singleStats pairStats rvAttr
          domain tuple hstep i fb hjne]
        exact hcol b (List.mem_cons_of_mem _ hb) fb hfb i

end FeatStepLemmas

theorem zerosT_read (rows cols i j : ℕ) : readT (zerosT rows cols) i j = 0 := by
  unfold zerosT readT
  by_cases hi : i < rows
  · rw [List.getD_eq_getElem?_getD _ i [], List.getElem?_replicate_of_lt hi]
    simp only [Option.getD_some]
    by_cases hj : j < cols
    · rw [List.getD_eq_getElem?_getD _ j 0, List.getElem?_replicate_of_lt hj]
      rfl
    · rw [List.getD_eq_getElem?_getD _ j 0, List.getElem?_eq_none (by simpa using hj)]
      rfl
  · rw [List.getD_eq_getElem?_getD _ i [],
      List.getElem?_eq_none (by simpa using hi)]
    rfl

/-- **C10.** In `gen_feat_tensor`, the branch choice between scoring only
the observed co-occurring values (taken when their number is at most the
cell's distinct-domain size) and scoring every domain value is
extensionally irrelevant: for every input, both variants produce the same
tensor — every domain value receives `count(other_value, v) / count1`,
defaulting to 0 when it was never observed co-occurring, because writing
probability 0 into a zero-initialized channel is a no-op.  Hypotheses:
the attribute list is duplicate-free and distinct attributes use distinct
feature channels (the channel map enumerates pairs). -/
theorem claim_C10 :
    ∀ (isNull : Val → Bool) (pairIdx : Val × Val → Option ℕ)
      (singleStats : Val → Val → ℕ)
      (pairStats : Val → Val → List (Val × List (Val × ℕ)))
      (classes numFeats : ℕ) (allAttrs : List Val) (rvAttr : Val)
      (domain : List Val) (tuple : Val → Val),
      allAttrs.Nodup →
      (∀ a b fa fb, a ∈ allAttrs → b ∈ allAttrs → pairIdx (rvAttr, a) = some fa →
        pairIdx (rvAttr, b) = some fb → a ≠ b → fa ≠ fb) →
      gen_feat_tensor isNull pairIdx singleStats pairStats classes numFeats
        allAttrs rvAttr domain tuple
        = gen_feat_tensor_alldom isNull pairIdx singleStats pairStats classes
            numFeats allAttrs rvAttr domain tuple := by
  intro isNull pairIdx singleStats pairStats classes numFeats allAttrs rvAttr
    domain tuple hnd hinj
  unfold gen_feat_tensor gen_feat_tensor_alldom
  exact featFold_eq_all isNull pairIdx singleStats pairStats rvAttr domain tuple
    allAttrs (zerosT classes numFeats) hnd hinj
    (fun _ _ fa _ i => zerosT_read classes numFeats i fa)

/-- Witness for C10 at concrete inputs: one channelled attribute `A`
whose conditioning value co-occurs with `x` only, over the domain
`[x, b0]`. -/
theorem claim_C10_witness :
    (["A"] : List Val).Nodup ∧
    (∀ a b fa fb, a ∈ (["A"] : List Val) → b ∈ (["A"] : List Val) →
      (fun p => if p = (("B" : Val), ("A" : Val)) then some 0 else none) (("B" : Val), a) = some fa →
      (fun p => if p = (("B" : Val), ("A" : Val)) then some 0 else none) (("B" : Val), b) = some fb →
      a ≠ b → fa ≠ fb) ∧
    gen_feat_tensor (fun _ => false)
        (fun p => if p = (("B" : Val), ("A" : Val)) then some 0 else none)
        (fun _ _ => 2) (fun c a => if c = "A" ∧ a = "B" then [("H", [("x", 1)])] else [])
        2 1 ["A"] "B" ["x", "b0"] (fun _ => "H")
      = gen_feat_tensor_alldom (fun _ => false)
          (fun p => if p = (("B" : Val), ("A" : Val)) then some 0 else none)
          (fun _ _ => 2) (fun c a => if c = "A" ∧ a = "B" then [("H", [("x", 1)])] else [])
          2 1 ["A"] "B" ["x", "b0"] (fun _ => "H") := by
  refine ⟨by decide, ?_, ?_⟩
  · intro a b fa fb ha hb _ _ hne
    simp only [List.mem_singleton] at ha hb
    rw [ha, hb] at hne
    exact absurd rfl hne
  · exact claim_C10 (fun _ => false)
      (fun p => if p = (("B" : Val), ("A" : Val)) then some 0 else none)
      (fun _ _ => 2) (fun c a => if c = "A" ∧ a = "B" then [("H", [("x", 1)])] else [])
      2 1 ["A"] "B" ["x", "b0"] (fun _ => "H") (by decide)
      (by
        intro a b fa fb ha hb _ _ hne
        simp only [List.mem_singleton] at ha hb
        rw [ha, hb] at hne
        exact absurd rfl hne)

/-! ### `create_tensor` (lines 37-51): per-cell tensors in `vid` order -/

/-- Insertion step of the stable ascending sort on `_vid_` used by
`sort_values(by=['_vid_'])` (pandas' default sort is stable). -/
def insByVid (r : Record) : List Record → List Record
  | [] => [r]
  | s :: ss => if s.vid ≤ r.vid then s :: insByVid r ss else r :: s :: ss

/-- Stable sort of the `cell_domain` records by `_vid_`. -/
def sortByVid : List Record → List Record
  | [] => []
  | r :: rs => insByVid r (sortByVid rs)

/-- The per-record tensor loop of `create_tensor`: one tensor per row,
failing on the first raised exception. -/
def mapTensors (isNull : Val → Bool) (pairIdx : Val × Val → Option ℕ)
    (singleStats : Val → Val → ℕ)
    (pairStats : Val → Val → List (Val × List (Val × ℕ)))
    (classes numFeats : ℕ) (allAttrs : List Val) (raw : ℤ → Val → Val) :
    List Record → Except String (List (List (List ℚ)))
  | [] => .ok []
  | r :: rs =>
    match gen_feat_tensor isNull pairIdx singleStats pairStats classes numFeats
        allAttrs r.attr r.domain (raw r.tid) with
    | .error e => .error e
    | .ok t =>
      match mapTensors isNull pairIdx singleStats pairStats classes numFeats
          allAttrs raw rs with
      | .error e => .error e
      | .ok ts => .ok (t :: ts)

/-- `create_tensor`: sort the cell-domain records by `_vid_`, generate one
feature tensor per cell, and stack them (`torch.cat`) in that order. -/
def create_tensor (isNull : Val → Bool) (pairIdx : Val × Val → Option ℕ)
    (singleStats : Val → Val → ℕ)
    (pairStats : Val → Val → List (Val × List (Val × ℕ)))
    (classes numFeats : ℕ) (allAttrs : List Val) (raw : ℤ → Val → Val)
    (records : List Record) : Except String (List (List (List ℚ))) :=
  mapTensors isNull pairIdx singleStats pairStats classes numFeats allAttrs raw
    (sortByVid records)

theorem insByVid_perm (r : Record) (l : List Record) :
    (insByVid r l).Perm (r :: l) := by
  induction l with
  | nil => simp [insByVid]
  | cons s ss ih =>
    unfold insByVid
    split
    · exact (ih.cons s).trans (List.Perm.swap r s ss)
    · exact List.Perm.refl _

theorem sortByVid_perm (l : List Record) : (sortByVid l).Perm l := by
  induction l with
  | nil => simp [sortByVid]
  | cons r rs ih => exact (insByVid_perm r (sortByVid rs)).trans (ih.cons r)

theorem insByVid_headm (r : Record) (l : List Record) :
    (insByVid r l).head? = some r ∨ (insByVid r l).head? = l.head? := by
  cases l with
  | nil => left; rfl
  | cons s ss =>
    unfold insByVid
    split
    · right; rfl
    · left; rfl

theorem insByVid_sorted {l : List Record} (r : Record)
    (h : List.Chain' (fun a b : Record => a.vid ≤ b.vid) l) :
    List.Chain' (fun a b : Record => a.vid ≤ b.vid) (insByVid r l) := by
  induction l with
  | nil => simp [insByVid]
  | cons s ss ih =>
    unfold insByVid
    split
    · rename_i hle
      have hss := (List.chain'_cons'.mp h).2
      have hhd := (List.chain'_cons'.mp h).1
      refine List.chain'_cons'.mpr ⟨fun z hz => ?_, ih hss⟩
      rcases insByVid_headm r ss with hh | hh
      · rw [hh] at hz
        simp only [Option.mem_def, Option.some.injEq] at hz
        subst hz
        exact hle
      · rw [hh] at hz
        exact hhd z hz
    · rename_i hlt
      refine List.chain'_cons'.mpr ⟨fun z hz => ?_, h⟩
      simp only [List.head?_cons, Option.mem_def, Option.some.injEq] at hz
      subst hz
      omega

theorem sortByVid_sorted (l : List Record) :
    List.Chain' (fun a b : Record => a.vid ≤ b.vid) (sortByVid l) := by
  induction l with
  | nil => simp [sortByVid]
  | cons r rs ih => exact insByVid_sorted r ih

theorem mapTensors_get (isNull : Val → Bool) (pairIdx : Val × Val → Option ℕ)
    (singleStats : Val → Val → ℕ)
    (pairStats : Val → Val → List (Val × List (Val × ℕ)))
    (classes numFeats : ℕ) (allAttrs : List Val) (raw : ℤ → Val → Val) :
    ∀ (rs : List Record) (ts : List (List (List ℚ))),
      mapTensors isNull pairIdx singleStats pairStats classes numFeats allAttrs
        raw rs = .ok ts →
      ts.length = rs.length ∧
      ∀ i r, rs.get? i = some r →
        ∃ t, gen_feat_tensor isNull pairIdx singleStats pairStats classes
            numFeats allAttrs r.attr r.domain (raw r.tid) = .ok t ∧
          ts.get? i = some t := by
  intro rs
  induction rs with
  | nil =>
    intro ts h
    cases h
    exact ⟨rfl, fun i r hr => by simp at hr⟩
  | cons r0 rs ih =>
    intro ts h
    unfold mapTensors at h
    cases h1 : gen_feat_tensor isNull pairIdx singleStats pairStats classes
        numFeats allAttrs r0.attr r0.domain (raw r0.tid) with
    | error e => rw [h1] at h; simp at h
    | ok t0 =>
      rw [h1] at h
      cases h2 : mapTensors isNull pairIdx singleStats pairStats classes numFeats
          allAttrs raw rs with
      | error e => rw [h2] at h; simp at h
      | ok ts0 =>
        rw [h2] at h
        simp only [Except.ok.injEq] at h
        subst h
        obtain ⟨hlen, hpt⟩ := ih ts0 h2
        refine ⟨by simp [hlen], ?_⟩
        intro i r hr
        cases i with
        | zero =>
          simp only [List.get?_cons_zero] at hr ⊢
          injection hr with hr
          subst hr
          exact ⟨t0, h1, rfl⟩
        | succ i' =>
          simp only [List.get?_cons_succ] at hr ⊢
          exact hpt i' r hr

/-- The entry value the specification prescribes for a candidate value
`v` on the channel of `(rv_attribute, attr)`:
`count(other_attribute_value, v) / count(other_attribute_value)` when the
tuple's value for `attr` is present and has co-occurrence statistics, and
0 otherwise. -/
def occurProb (isNull : Val → Bool) (singleStats : Val → Val → ℕ)
    (pairStats : Val → Val → List (Val × List (Val × ℕ)))
    (rvAttr attr : Val) (tuple : Val → Val) (v : Val) : ℚ :=
  if attr ≠ rvAttr ∧ ¬ isNull (tuple attr) then
    match lookupA (pairStats attr rvAttr) (tuple attr) with
    | some allVals =>
      (((lookupA allVals v).getD 0 : ℕ) : ℚ) / ((singleStats attr (tuple attr) : ℕ) : ℚ)
    | none => 0
  else 0

section FeatCharLemmas

variable (isNull : Val → Bool) (pairIdx : Val × Val → Option ℕ)
  (singleStats : Val → Val → ℕ)
  (pairStats : Val → Val → List (Val × List (Val × ℕ)))
  (rvAttr : Val) (domain : List Val) (tuple : Val → Val)

theorem featAttrStep_char {T T' : List (List ℚ)} {a : Val} {fa : ℕ}
    (hstep : featAttrStep isNull pairIdx singleStats pairStats rvAttr domain
      tuple T a = .ok T')
    (hfa : pairIdx (rvAttr, a) = some fa)
    (hdnd : domain.Nodup)
    (hdlen : domain.length ≤ T.length)
    (hfab : ∀ i, i < domain.length → fa < (T.getD i []).length)
    (hcol : ∀ i, readT T i fa = 0) :
    ∀ i v, domain.get? i = some v →
      readT T' i fa = occurProb isNull singleStats pairStats rvAttr a tuple v := by
  intro i v hget
  have hidx : pyDictIdx domain v = some i := pyDictIdx_nodup hdnd hget
  have hilt : i < domain.length := get?_lt_length hget
  have hvd : v ∈ domain := by
    rcases List.get?_eq_some.mp hget with ⟨hlt, hgv⟩
    rw [← hgv]
    exact List.get_mem _ _ _
  have hiT : i < T.length := by omega
  have hfT : fa < (T.getD i []).length := hfab i hilt
  unfold featAttrStep at hstep
  rw [hfa] at hstep
  revert hstep
  dsimp only
  split
  · rename_i hcond
    cases hl : lookupA (pairStats a rvAttr) (tuple a) with
    | none =>
      dsimp only
      split
      · intro hstep; cases hstep
      · intro hstep
        injection hstep with hstep
        subst hstep
        rw [hcol i]
        unfold occurProb
        rw [if_pos hcond, hl]
    | some allVals =>
      dsimp only
      intro hstep
      injection hstep with hstep
      subst hstep
      have hoc : occurProb isNull singleStats pairStats rvAttr a tuple v
          = (((lookupA allVals v).getD 0 : ℕ) : ℚ)
            / ((singleStats a (tuple a) : ℕ) : ℚ) := by
        unfold occurProb
        rw [if_pos hcond, hl]
      rw [hoc]
      split
      · by_cases hvk : v ∈ allVals.map (fun e => e.1)
        · exact candFold_read_write _ allVals domain fa _ T v i hvk hidx hiT hfT
        · have hframe : ∀ u ∈ allVals.map (fun e => e.1),
              pyDictIdx domain u ≠ some i := by
            intro u hu hc
            have : v = u := pyDictIdx_val_eq hidx hc
            rw [this] at hvk
            exact hvk hu
          rw [candFold_read_other _ allVals domain fa _ T i fa (Or.inr hframe),
            hcol i, lookupA_none_of_not_mem hvk]
          simp
      · exact candFold_read_write _ allVals domain fa domain T v i hvd hidx hiT hfT
  · rename_i hcond
    intro hstep
    injection hstep with hstep
    subst hstep
    rw [hcol i]
    unfold occurProb
    rw [if_neg hcond]

theorem pyDictIdx_lt_length {l : List Val} {v : Val} {i : ℕ}
    (h : pyDictIdx l v = some i) : i < l.length :=
  get?_lt_length (pyDictIdx_get h)

theorem featAttrStep_row_frame {T T' : List (List ℚ)} {a : Val}
    (h : featAttrStep isNull pairIdx singleStats pairStats rvAttr domain tuple T a
      = .ok T') (i j : ℕ) (hi : domain.length ≤ i) :
    readT T' i j = readT T i j := by
  unfold featAttrStep at h
  revert h
  cases hp : pairIdx (rvAttr, a) with
  | none =>
    intro h
    injection h with h
    subst h
    rfl
  | some fa =>
    dsimp only
    split
    · cases hl : lookupA (pairStats a rvAttr) (tuple a) with
      | none =>
        dsimp only
        split
        · intro h; cases h
        · intro h
          injection h with h
          subst h
          rfl
      | some allVals =>
        dsimp only
        intro h
        injection h with h
        subst h
        apply candFold_read_other
        right
        intro v _ hc
        have := pyDictIdx_lt_length hc
        omega
    · intro h
      injection h with h
      subst h
      rfl

theorem featFold_row_frame :
    ∀ (attrs : List Val) (T TF : List (List ℚ)),
      featFold isNull pairIdx singleStats pairStats rvAttr domain tuple attrs T
        = .ok TF →
      ∀ i j, domain.length ≤ i → readT TF i j = readT T i j := by
  intro attrs
  induction attrs with
  | nil =>
    intro T TF h i j _
    cases h
    rfl
  | cons a as ih =>
    intro T TF h i j hi
    unfold featFold at h
    revert h
    cases hstep : featAttrStep isNull pairIdx singleStats pairStats rvAttr domain
        tuple T a with
    | error e => intro h; cases h
    | ok T1 =>
      intro h
      rw [ih T1 TF h i j hi]
      exact featAttrStep_row_frame isNull pairIdx singleStats pairStats rvAttr
        domain tuple hstep i j hi

theorem featFold_read_frame :
    ∀ (attrs : List Val) (T TF : List (List ℚ)),
      featFold isNull pairIdx singleStats pairStats rvAttr domain tuple attrs T
        = .ok TF →
      ∀ i j, (∀ b ∈ attrs, ∀ fb, pairIdx (rvAttr, b) = some fb → j ≠ fb) →
        readT TF i j = readT T i j := by
  intro attrs
  induction attrs with
  | nil =>
    intro T TF h i j _
    cases h
    rfl
  | cons a as ih =>
    intro T TF h i j hj
    unfold featFold at h
    revert h
    cases hstep : featAttrStep isNull pairIdx singleStats pairStats rvAttr domain
        tuple T a with
    | error e => intro h; cases h
    | ok T1 =>
      intro h
      have h1 := ih T1 TF h i j
        (fun b hb fb hfb => hj b (List.mem_cons_of_mem _ hb) fb hfb)
      rw [h1]
      exact featAttrStep_read_frame isNull pairIdx singleStats pairStats rvAttr
        domain tuple hstep i j (fun fb hfb => hj a (by simp) fb hfb)

theorem featFold_char :
    ∀ (attrs : List Val) (T TF : List (List ℚ)),
      attrs.Nodup →
      (∀ a b fa fb, a ∈ attrs → b ∈ attrs → pairIdx (rvAttr, a) = some fa →
        pairIdx (rvAttr, b) = some fb → a ≠ b → fa ≠ fb) →
      domain.Nodup →
      domain.length ≤ T.length →
      (∀ a ∈ attrs, ∀ fa, pairIdx (rvAttr, a) = some fa →
        ∀ i, i < domain.length → fa < (T.getD i []).length) →
      (∀ a ∈ attrs, ∀ fa, pairIdx (rvAttr, a) = some fa →
        ∀ i, readT T i fa = 0) →
      featFold isNull pairIdx singleStats pairStats rvAttr domain tuple attrs T
        = .ok TF →
      (TF.length = T.length ∧ ∀ i, (TF.getD i []).length = (T.getD i []).length) ∧
      (∀ a ∈ attrs, ∀ fa, pairIdx (rvAttr, a) = some fa →
        ∀ i v, domain.get? i = some v →
          readT TF i fa = occurProb isNull singleStats pairStats rvAttr a tuple v) := by
  intro attrs
  induction attrs with
  | nil =>
    intro T TF _ _ _ _ _ _ h
    cases h
    exact ⟨⟨rfl, fun _ => rfl⟩, fun a ha => by simp at ha⟩
  | cons a as ih =>
    intro T TF hnd hinj hdnd hdlen hfab hcol h
    unfold featFold at h
    revert h
    cases hstep : featAttrStep isNull pairIdx singleStats pairStats rvAttr domain
        tuple T a with
    | error e => intro h; cases h
    | ok T1 =>
      intro h
      obtain ⟨hshape1, hrow1⟩ := featAttrStep_shape isNull pairIdx singleStats
        pairStats rvAttr domain tuple hstep
      have hcol1 : ∀ b ∈ as, ∀ fb, pairIdx (rvAttr, b) = some fb →
          ∀ i, readT T1 i fb = 0 := by
        intro b hb fb hfb i
        have hbne : b ≠ a := by
          intro he
          rw [he] at hb
          exact (List.nodup_cons.mp hnd).1 hb
        have hjne : ∀ fc, pairIdx (rvAttr, a) = some fc → fb ≠ fc := by
          intro fc hfc
          exact hinj b a fb fc (List.mem_cons_of_mem _ hb) (by simp) hfb hfc hbne
        rw [featAttrStep_read_frame isNull pairIdx singleStats pairStats rvAttr
          domain tuple hstep i fb hjne]
        exact hcol b (List.mem_cons_of_mem _ hb) fb hfb i
      obtain ⟨⟨hlenF, hrowF⟩, hcharF⟩ := ih T1 TF (List.Nodup.of_cons hnd)
        (fun a' b' fa fb ha hb hfa hfb hne => hinj a' b' fa fb
          (List.mem_cons_of_mem _ ha) (List.mem_cons_of_mem _ hb) hfa hfb hne)
        hdnd (by omega)
        (fun b hb fb hfb i hi => by
          rw [hrow1 i]
          exact hfab b (List.mem_cons_of_mem _ hb) fb hfb i hi)
        hcol1 h
      refine ⟨⟨by omega, fun i => (hrowF i).trans (hrow1 i)⟩, ?_⟩
      intro a' ha' fa hfa i v hget
      rcases List.mem_cons.mp ha' with hcase | hcase
      · subst hcase
        have hframe : ∀ b ∈ as, ∀ fb, pairIdx (rvAttr, b) = some fb → fa ≠ fb := by
          intro b hb fb hfb
          have hbne : a' ≠ b := by
            intro he
            rw [← he] at hb
            exact (List.nodup_cons.mp hnd).1 hb
          exact hinj a' b fa fb (by simp) (List.mem_cons_of_mem _ hb) hfa hfb hbne
        rw [featFold_read_frame isNull pairIdx singleStats pairStats rvAttr domain
          tuple as T1 TF h i fa hframe]
        exact featAttrStep_char isNull pairIdx singleStats pairStats rvAttr domain
          tuple hstep hfa hdnd hdlen (hfab a' (by simp) fa hfa)
          (hcol a' (by simp) fa hfa) i v hget
      · exact hcharF a' hcase fa hfa i v hget

end FeatCharLemmas

theorem zerosT_length (rows cols : ℕ) : (zerosT rows cols).length = rows := by
  simp [zerosT]

theorem zerosT_row_length (rows cols i : ℕ) (hi : i < rows) :
    ((zerosT rows cols).getD i []).length = cols := by
  unfold zerosT
  rw [List.getD_eq_getElem?_getD _ i [], List.getElem?_replicate_of_lt hi]
  simp

/-- The claimed shape `domain_size × num_feats` is false: `gen_feat_tensor`
allocates `torch.zeros(1, self.classes, self.num_feats)` (line 54), so the
row count is the session-wide constant `classes`, not the cell's domain
size.  Here `classes = 3` while the domain has 2 values, and the emitted
tensor has 3 rows. -/
theorem claim_C9_counterexample :
    ¬ (((gen_feat_tensor (fun _ => false) (fun _ => none) (fun _ _ => 0)
          (fun _ _ => []) 3 1 ["A"] "B" ["a", "b"]
          (fun _ => "")).toOption.getD []).length
        = (["a", "b"] : List Val).length) := by
  decide

/-- **C9 (corrected).** For every variable cell, `gen_feat_tensor` emits one
feature tensor of shape `classes × num_feats` — `classes` being the
session-wide constant row count (line 54), NOT the cell's domain size as
claimed — in which, for every channelled attribute pair `(rv_attr, a)`,
the entry at the row of candidate value `v` equals
`count(tuple[a], v) / count(tuple[a])` when `tuple[a]` is present and has
co-occurrence statistics and 0 otherwise (`occurProb`); rows beyond the
cell's domain and entries on unchannelled columns stay 0; and
`create_tensor` concatenates the per-cell tensors in `_vid_` order. -/
theorem claim_C9
    (isNull : Val → Bool) (pairIdx : Val × Val → Option ℕ)
    (singleStats : Val → Val → ℕ)
    (pairStats : Val → Val → List (Val × List (Val × ℕ)))
    (classes numFeats : ℕ) (allAttrs : List Val) (rvAttr : Val)
    (domain : List Val) (tuple : Val → Val) (TF : List (List ℚ))
    (hok : gen_feat_tensor isNull pairIdx singleStats pairStats classes numFeats
      allAttrs rvAttr domain tuple = .ok TF)
    (hnd : allAttrs.Nodup)
    (hinj : ∀ a b fa fb, a ∈ allAttrs → b ∈ allAttrs →
      pairIdx (rvAttr, a) = some fa → pairIdx (rvAttr, b) = some fb →
      a ≠ b → fa ≠ fb)
    (hdnd : domain.Nodup)
    (hdlen : domain.length ≤ classes)
    (hfb : ∀ a ∈ allAttrs, ∀ fa, pairIdx (rvAttr, a) = some fa → fa < numFeats) :
    (TF.length = classes ∧ ∀ i, i < classes → (TF.getD i []).length = numFeats) ∧
    (∀ a ∈ allAttrs, ∀ fa, pairIdx (rvAttr, a) = some fa →
      ∀ i v, domain.get? i = some v →
        readT TF i fa = occurProb isNull singleStats pairStats rvAttr a tuple v) ∧
    (∀ i j, domain.length ≤ i → readT TF i j = 0) ∧
    (∀ j, (∀ a ∈ allAttrs, ∀ fa, pairIdx (rvAttr, a) = some fa → j ≠ fa) →
      ∀ i, readT TF i j = 0) ∧
    (∀ (raw : ℤ → Val → Val) (records : List Record)
        (ts : List (List (List ℚ))),
      create_tensor isNull pairIdx singleStats pairStats classes numFeats
        allAttrs raw records = .ok ts →
      ts.length = records.length ∧
      ∃ sorted : List Record, sorted.Perm records ∧
        List.Chain' (fun a b : Record => a.vid ≤ b.vid) sorted ∧
        ∀ i r, sorted.get? i = some r →
          ∃ t, gen_feat_tensor isNull pairIdx singleStats pairStats classes
              numFeats allAttrs r.attr r.domain (raw r.tid) = .ok t ∧
            ts.get? i = some t) := by
  unfold gen_feat_tensor at hok
  obtain ⟨⟨hlen, hrows⟩, hchar⟩ := featFold_char isNull pairIdx singleStats
    pairStats rvAttr domain tuple allAttrs (zerosT classes numFeats) TF hnd hinj
    hdnd (by rw [zerosT_length]; exact hdlen)
    (fun a ha fa hfa i hi => by
      rw [zerosT_row_length classes numFeats i (by omega)]
      exact hfb a ha fa hfa)
    (fun a _ fa _ i => zerosT_read classes numFeats i fa)
    hok
  refine ⟨⟨by rw [hlen, zerosT_length], fun i hi => by
    rw [hrows i, zerosT_row_length classes numFeats i hi]⟩, hchar,
    fun i j hi => by
      rw [featFold_row_frame isNull pairIdx singleStats pairStats rvAttr domain
        tuple allAttrs (zerosT classes numFeats) TF hok i j hi]
      exact zerosT_read classes numFeats i j,
    fun j hj i => by
      rw [featFold_read_frame isNull pairIdx singleStats pairStats rvAttr domain
        tuple allAttrs (zerosT classes numFeats) TF hok i j hj]
      exact zerosT_read classes numFeats i j, ?_⟩
  intro raw records ts hct
  unfold create_tensor at hct
  obtain ⟨hl, hpt⟩ := mapTensors_get isNull pairIdx singleStats pairStats classes
    numFeats allAttrs raw (sortByVid records) ts hct
  exact ⟨by rw [hl, (sortByVid_perm records).length_eq],
    sortByVid records, sortByVid_perm records, sortByVid_sorted records, hpt⟩

/-- Witness for C9 at concrete inputs: `classes = 2`, one channelled
attribute `A` on channel 0, conditioning value `H` present in the pairwise
statistics with an empty co-occurrence list, domain `[x, b0]`. -/
theorem claim_C9_witness :
    ((gen_feat_tensor (fun _ => false)
        (fun p => if p = (("B" : Val), ("A" : Val)) then some 0 else none)
        (fun _ _ => 2) (fun c a => if c = "A" ∧ a = "B" then [("H", [])] else [])
        2 1 ["A"] "B" ["x", "b0"] (fun _ => "H")
       = .ok [[0], [0]]) ∧
     (["A"] : List Val).Nodup ∧ (["x", "b0"] : List Val).Nodup ∧
     (["x", "b0"] : List Val).length ≤ 2) ∧
    (([[0], [0]] : List (List ℚ)).length = 2 ∧
      ∀ i, i < 2 → (([[0], [0]] : List (List ℚ)).getD i []).length = 1) ∧
    (∀ a ∈ (["A"] : List Val), ∀ fa,
      (fun p => if p = (("B" : Val), ("A" : Val)) then some 0 else none)
        (("B" : Val), a) = some fa →
      ∀ i v, (["x", "b0"] : List Val).get? i = some v →
        readT [[0], [0]] i fa
          = occurProb (fun _ => false) (fun _ _ => 2)
              (fun c a' => if c = "A" ∧ a' = "B" then [("H", [])] else [])
              "B" a (fun _ => "H") v) ∧
    (∀ i j, (["x", "b0"] : List Val).length ≤ i →
      readT [[0], [0]] i j = 0) ∧
    (∀ j, (∀ a ∈ (["A"] : List Val), ∀ fa,
        (fun p => if p = (("B" : Val), ("A" : Val)) then some 0 else none)
          (("B" : Val), a) = some fa → j ≠ fa) →
      ∀ i, readT [[0], [0]] i j = 0) ∧
    (∀ (raw : ℤ → Val → Val) (records : List Record)
        (ts : List (List (List ℚ))),
      create_tensor (fun _ => false)
          (fun p => if p = (("B" : Val), ("A" : Val)) then some 0 else none)
          (fun _ _ => 2)
          (fun c a => if c = "A" ∧ a = "B" then [("H", [])] else [])
          2 1 ["A"] raw records = .ok ts →
      ts.length = records.length ∧
      ∃ sorted : List Record, sorted.Perm records ∧
        List.Chain' (fun a b : Record => a.vid ≤ b.vid) sorted ∧
        ∀ i r, sorted.get? i = some r →
          ∃ t, gen_feat_tensor (fun _ => false)
              (fun p => if p = (("B" : Val), ("A" : Val)) then some 0 else none)
              (fun _ _ => 2)
              (fun c a => if c = "A" ∧ a = "B" then [("H", [])] else [])
              2 1 ["A"] r.attr r.domain (raw r.tid) = .ok t ∧
            ts.get? i = some t) :=
  ⟨⟨rfl, by decide, by decide, by decide⟩,
    claim_C9 (fun _ => false)
      (fun p => if p = (("B" : Val), ("A" : Val)) then some 0 else none)
      (fun _ _ => 2) (fun c a => if c = "A" ∧ a = "B" then [("H", [])] else [])
      2 1 ["A"] "B" ["x", "b0"] (fun _ => "H") [[0], [0]] rfl (by decide)
      (by
        intro a b fa fb ha hb _ _ hne
        simp only [List.mem_singleton] at ha hb
        rw [ha, hb] at hne
        exact absurd rfl hne)
      (by decide) (by decide)
      (by
        intro a ha fa hfa
        simp only [List.mem_singleton] at ha
        subst ha
        simp at hfa
        omega)⟩

end HoloClean
